import Mathlib

/-!
Verification development for the `focus-layers` library.

The definitions below are a shallow embedding of the library's core:

* `src/LockStack.tsx` — the lock stack (`add`, `remove`, `current`,
  `isActive`, `toggleLayer`, `subscribe`, `emit`).  Callbacks are modelled
  by numeric identities; every invocation of a lock's `setEnabled` callback
  and every listener notification is recorded as an event so that temporal
  claims about the call trace can be stated.
* `src/util/wrapFocus.tsx` — the wrap algorithm over a small document
  model (elements as preorder intervals of a tree, which determines
  `compareDocumentPosition`, `contains`, and document order).
* `src/useFocusLock.tsx` — `handleFocusOut` and the cleanup function of
  `useFocusReturn`, modelled as functions producing the list of DOM
  actions they perform.
-/

namespace FocusLayers

/-- Lock record (`Lock` in `LockStack.tsx`).  The `setEnabled` callback is
represented by its identity `cb : Nat`; `enabled` mirrors the last value
passed to the callback, exactly as the `enabled` field in the source. -/
structure Lock where
  uid : String
  cb : Nat
  enabled : Bool
deriving DecidableEq, Repr

/-- Observable events of a lock-stack operation: a `setEnabled` callback
invocation (`call`), or a subscribed listener notification (`notify`,
carrying the `enabled`/`isActive` boolean passed to the listener). -/
inductive Ev where
  | call (cb : Nat) (b : Bool)
  | notify (listener : Nat) (b : Bool)
deriving DecidableEq, Repr

/-- The `LockStack` class state: the array `locks` (index 0 = bottom,
last = top of stack) and the `listeners` array, with listeners
represented by numeric identities. -/
structure LockStack where
  locks : List Lock
  listeners : List Nat
deriving DecidableEq, Repr

/-- A freshly constructed `LockStack`: both arrays start empty. -/
def emptyStack : LockStack := { locks := [], listeners := [] }

/-- `current()`: the lock at `this.locks[this.locks.length - 1]`. -/
def current (s : LockStack) : Option Lock := s.locks.getLast?

/-- `isActive()`: `this.current()?.enabled ?? false`. -/
def isActive (s : LockStack) : Bool := ((current s).map (fun l => l.enabled)).getD false

/-- `emit()`: call every listener, in order, with `isActive()` (the stack
reference argument is not modelled; the boolean is recorded). -/
def emitEvs (s : LockStack) : List Ev := s.listeners.map (fun l => Ev.notify l (isActive s))

/-- In-place mutation performed by `toggleLayer` when its argument is the
top of the stack (the lock object at the last index): set that lock's
`enabled` field. -/
def setEnabledLast : List Lock → Bool → List Lock
  | [], _ => []
  | [l], b => [{ l with enabled := b }]
  | l :: l2 :: ls, b => l :: setEnabledLast (l2 :: ls) b

/-- In-place mutation performed by `toggleLayer` in `remove`, where its
argument is `this.locks.find((lock) => lock.uid === uid)`: set the
`enabled` field of the first lock whose `uid` matches. -/
def setEnabledFirstMatch : List Lock → String → Bool → List Lock
  | [], _, _ => []
  | l :: ls, uid, b =>
    if l.uid == uid then { l with enabled := b } :: ls
    else l :: setEnabledFirstMatch ls uid b

/-- `add(uid, setEnabled)`: disable the current top via `toggleLayer`
(no-op when the stack is empty), push the new lock with `enabled = false`,
enable it via `toggleLayer`, then `emit()`.  Returns the new state and the
list of events in the order they occur. -/
def add (s : LockStack) (uid : String) (cb : Nat) : LockStack × List Ev :=
  let ev1 : List Ev := match current s with
    | some t => [Ev.call t.cb false]
    | none => []
  let locks1 := setEnabledLast s.locks false
  let locks2 := locks1 ++ [{ uid := uid, cb := cb, enabled := false }]
  let locks3 := setEnabledLast locks2 true
  let s2 : LockStack := { locks := locks3, listeners := s.listeners }
  (s2, ev1 ++ [Ev.call cb true] ++ emitEvs s2)

/-- `remove(uid)`: `find` the first lock with the given uid and disable it
via `toggleLayer` (callback invoked even when the lock is not the top),
compute `wasCurrent` from the (mutated) array, `filter` out every lock
with that uid, re-enable the new top if `wasCurrent`, then `emit()`. -/
def remove (s : LockStack) (uid : String) : LockStack × List Ev :=
  let found := s.locks.find? (fun l => l.uid == uid)
  let ev1 : List Ev := match found with
    | some l => [Ev.call l.cb false]
    | none => []
  let locks1 := setEnabledFirstMatch s.locks uid false
  let wasCurrent : Bool := match locks1.getLast? with
    | some t => t.uid == uid
    | none => false
  let locks2 := locks1.filter (fun l => l.uid != uid)
  let step : List Lock × List Ev :=
    if wasCurrent then
      match locks2.getLast? with
      | some t => (setEnabledLast locks2 true, [Ev.call t.cb true])
      | none => (locks2, [])
    else (locks2, [])
  let s2 : LockStack := { locks := step.1, listeners := s.listeners }
  (s2, ev1 ++ step.2 ++ emitEvs s2)

/-- `subscribe(callback)`: push the listener onto `this.listeners`. -/
def subscribe (s : LockStack) (cb : Nat) : LockStack :=
  { s with listeners := s.listeners ++ [cb] }

/-- Embedding of the closure returned by `subscribe`:
`() => this.listeners.filter((listener) => listener !== callback)`.
The body evaluates `this.listeners.filter(...)`, producing a filtered copy
(the closure's return value, second component), but never assigns it back
to `this.listeners`; the state is returned with `listeners` unchanged. -/
def unsubscribe (s : LockStack) (cb : Nat) : LockStack × List Nat :=
  (s, s.listeners.filter (fun l => l != cb))

/-- A lock-stack operation: one `add` or `remove` call. -/
inductive Op where
  | add (uid : String) (cb : Nat)
  | remove (uid : String)
deriving DecidableEq, Repr

/-- Apply one operation. -/
def applyOp (s : LockStack) : Op → LockStack × List Ev
  | Op.add uid cb => add s uid cb
  | Op.remove uid => remove s uid

/-- Run a sequence of operations, concatenating the event traces. -/
def run (s : LockStack) : List Op → LockStack × List Ev
  | [] => (s, [])
  | op :: ops =>
    let r1 := applyOp s op
    let r2 := run r1.1 ops
    (r2.1, r1.2 ++ r2.2)

/-- State after running `ops` from `s`. -/
def stateAfter (s : LockStack) (ops : List Op) : LockStack := (run s ops).1

/-- Event trace of running `ops` from `s`. -/
def traceOf (s : LockStack) (ops : List Op) : List Ev := (run s ops).2

/-- Project the `setEnabled` invocations out of an event trace, as
(callback identity, boolean argument) pairs in order. -/
def callsOf : List Ev → List (Nat × Bool)
  | [] => []
  | Ev.call c b :: evs => (c, b) :: callsOf evs
  | Ev.notify _ _ :: evs => callsOf evs

/-- Project the listener notifications out of an event trace. -/
def notifiesOf : List Ev → List (Nat × Bool)
  | [] => []
  | Ev.call _ _ :: evs => notifiesOf evs
  | Ev.notify l b :: evs => (l, b) :: notifiesOf evs

/-- The chronological list of boolean values passed to callback `c`. -/
def callsTo (c : Nat) : List (Nat × Bool) → List Bool
  | [] => []
  | x :: xs => if x.1 == c then x.2 :: callsTo c xs else callsTo c xs

/-- The last value passed to callback `c` in a call list, if any. -/
def lastVal (c : Nat) (calls : List (Nat × Bool)) : Option Bool :=
  (callsTo c calls).getLast?

/-- One step of the "currently-true callbacks" abstraction of a call
trace: a `true` call inserts the callback, a `false` call erases it. -/
def applyCall (S : Finset Nat) (x : Nat × Bool) : Finset Nat :=
  if x.2 then insert x.1 S else S.erase x.1

/-- Fold `applyCall` over a call list. -/
def activeAfter (S : Finset Nat) (calls : List (Nat × Bool)) : Finset Nat :=
  calls.foldl applyCall S

/-- Every intermediate point of the call list, starting from abstraction
`S`, has at most one callback whose last received value is `true`. -/
def safeFrom (S : Finset Nat) : List (Nat × Bool) → Prop
  | [] => True
  | x :: xs => (applyCall S x).card ≤ 1 ∧ safeFrom (applyCall S x) xs

/-- Callback identities of the currently enabled locks. -/
def enabledCbs (s : LockStack) : Finset Nat :=
  ((s.locks.filter (fun l => l.enabled)).map (fun l => l.cb)).toFinset

/-- Shape of the state invariant maintained by the stack: every lock below
the top is disabled and the top (when the stack is nonempty) is enabled. -/
def InvL : List Lock → Prop
  | [] => True
  | [l] => l.enabled = true
  | l :: l2 :: ls => l.enabled = false ∧ InvL (l2 :: ls)

/-- Well-formed operation sequences (the caller contract stated in
`LockStack.tsx`: uids are unique across all active locks; each lock has
its own `setEnabled` callback).  `used` accumulates callback identities
already handed to `add`. -/
def WFb : LockStack → List Nat → List Op → Bool
  | _, _, [] => true
  | s, used, Op.add uid cb :: ops =>
    decide (uid ∉ s.locks.map (fun l => l.uid)) && decide (cb ∉ used)
      && WFb (add s uid cb).1 (cb :: used) ops
  | s, used, Op.remove uid :: ops => WFb (remove s uid).1 used ops

/-- Callback identities passed to the `add` operations of a sequence. -/
def addCbs : List Op → List Nat
  | [] => []
  | Op.add _ cb :: ops => cb :: addCbs ops
  | Op.remove _ :: ops => addCbs ops

/-- The intermediate states visited while running `ops` from `s` (one
state per operation, after that operation). -/
def postStates (s : LockStack) : List Op → List LockStack
  | [] => []
  | op :: ops =>
    let s1 := (applyOp s op).1
    s1 :: postStates s1 ops

/-- Call list of a completed add→remove lifecycle: an initial strictly
alternating run starting with `true`, followed by the final `false`
delivered by `remove`. -/
def RemovedShape (L : List Bool) : Prop :=
  ∃ A, L = A ++ [false] ∧ List.Chain' (fun a b => a ≠ b) A ∧ A.head? = some true

/-- Call list of a currently-registered lock whose `enabled` field is
`e`: strictly alternating, starting with `true`, ending with `e`. -/
def RegShape (L : List Bool) (e : Bool) : Prop :=
  List.Chain' (fun a b => a ≠ b) L ∧ L.head? = some true ∧ L.getLast? = some e

/-- The `wasCurrent` test of `remove`, expressed on the pre-state (the
`toggleLayer` mutation preceding it changes no uid). -/
def wasCur (s : LockStack) (uid : String) : Bool :=
  match s.locks.getLast? with
  | some t => t.uid == uid
  | none => false

/-- Callback identities accumulated by a well-formed run. -/
def usedAfter (used : List Nat) : List Op → List Nat
  | [] => used
  | Op.add _ cb :: ops => usedAfter (cb :: used) ops
  | Op.remove _ :: ops => usedAfter used ops

/-- The full simulation invariant tying a reachable stack state to the
call trace that produced it: the stack satisfies the enabled-top shape,
uids and callback identities are duplicate-free, every registered lock's
call list has `RegShape`, every retired callback's call list has
`RemovedShape`, unused callbacks have empty call lists, and the set of
callbacks whose last received value is `true` is exactly the enabled
locks' callbacks. -/
def MInv (s : LockStack) (used : List Nat) (tr : List (Nat × Bool)) : Prop :=
  InvL s.locks
  ∧ (s.locks.map (fun l => l.uid)).Nodup
  ∧ (s.locks.map (fun l => l.cb)).Nodup
  ∧ (∀ l ∈ s.locks, l.cb ∈ used)
  ∧ (∀ l ∈ s.locks, RegShape (callsTo l.cb tr) l.enabled)
  ∧ (∀ c ∈ used, c ∉ s.locks.map (fun l => l.cb) → RemovedShape (callsTo c tr))
  ∧ (∀ c, c ∉ used → callsTo c tr = [])
  ∧ enabledCbs s = activeAfter ∅ tr

/-! ### Document model for `wrapFocus.tsx` and `useFocusLock.tsx`

A DOM element is modelled by the preorder interval of its subtree in the
document tree (`lo` = its own preorder index, `hi` = the largest preorder
index in its subtree) together with the properties the source reads:
`tabIndex` and `disabled`.  This interval model determines `contains` and
`compareDocumentPosition` for any two elements of one document. -/

/-- A DOM element, as the preorder interval of its subtree plus the
properties read by `createFocusWalker`. -/
structure Element where
  lo : Nat
  hi : Nat
  tabIndex : Int
  disabled : Bool
deriving DecidableEq, Repr

/-- `Node.DOCUMENT_POSITION_PRECEDING`. -/
def DOCUMENT_POSITION_PRECEDING : Nat := 2

/-- `Node.DOCUMENT_POSITION_FOLLOWING`. -/
def DOCUMENT_POSITION_FOLLOWING : Nat := 4

/-- `Node.DOCUMENT_POSITION_CONTAINS`. -/
def DOCUMENT_POSITION_CONTAINS : Nat := 8

/-- `Node.DOCUMENT_POSITION_CONTAINED_BY`. -/
def DOCUMENT_POSITION_CONTAINED_BY : Nat := 16

/-- `a.contains(b)`: `b` is `a` itself or a descendant of `a` — in the
interval model, `b`'s subtree interval lies inside `a`'s. -/
def contains (a b : Element) : Bool := a.lo ≤ b.lo && b.hi ≤ a.hi

/-- `node.compareDocumentPosition(other)` (DOM standard, both nodes in one
document): the returned bitmask describes the position of `other`
relative to `node`.  An ancestor is `CONTAINS | PRECEDING`, a descendant
is `CONTAINED_BY | FOLLOWING`, and disjoint nodes compare by preorder
index. -/
def compareDocumentPosition (node other : Element) : Nat :=
  if node = other then 0
  else if contains other node then
    DOCUMENT_POSITION_CONTAINS ||| DOCUMENT_POSITION_PRECEDING
  else if contains node other then
    DOCUMENT_POSITION_CONTAINED_BY ||| DOCUMENT_POSITION_FOLLOWING
  else if other.lo < node.lo then DOCUMENT_POSITION_PRECEDING
  else DOCUMENT_POSITION_FOLLOWING

/-- `a` wholly precedes `b` in document order (disjoint subtrees, `a`
first). -/
def precedesDoc (a b : Element) : Bool := a.hi < b.lo

/-- `a` wholly follows `b` in document order (disjoint subtrees, `b`
first). -/
def followsDoc (a b : Element) : Bool := b.hi < a.lo

/-- The `acceptNode` test of the second `createFocusWalker` in
`wrapFocus.tsx`: `node.tabIndex >= 0 && !node.disabled`. -/
def focusable (e : Element) : Bool := e.tabIndex ≥ 0 && !e.disabled

/-- A boundary element together with its proper descendants in document
order — the subtree walked by `createFocusWalker(root)`. -/
structure Subtree where
  root : Element
  descendants : List Element
deriving DecidableEq, Repr

/-- `walker.firstChild()` on a tree walker that accepts focusable nodes
and skips (but still descends into) the rest: the first focusable
descendant in document order. -/
def walkerFirstChild (t : Subtree) : Option Element :=
  t.descendants.find? focusable

/-- `walker.lastChild()`: the last focusable descendant in document
order. -/
def walkerLastChild (t : Subtree) : Option Element :=
  t.descendants.reverse.find? focusable

/-- `wrapFocus(root, target, forceFirst)` (the second definition in
`wrapFocus.tsx`, the one with `forceFirst` and the fallback to `root`):
returns the element that receives focus. -/
def wrapFocus (t : Subtree) (target : Element) (forceFirst : Bool) : Element :=
  let position := compareDocumentPosition target t.root
  let wrappedTarget : Option Element :=
    if (position &&& DOCUMENT_POSITION_PRECEDING != 0) || forceFirst then
      walkerFirstChild t
    else if position &&& DOCUMENT_POSITION_FOLLOWING != 0 then
      walkerLastChild t
    else none
  match wrappedTarget with
  | some w => w
  | none => t.root

/-- DOM actions performed by the `useFocusLock` event handlers and the
`useFocusReturn` cleanup. -/
inductive FAction where
  | preventDefault
  | focus (e : Element)
deriving DecidableEq, Repr

/-- The document-level state read by `handleFocusOut`: `document.body`
and `document.activeElement`. -/
structure DocModel where
  body : Element
  activeElement : Option Element
deriving DecidableEq, Repr

/-- `handleFocusOut(event)` from `useFocusLock.tsx`, for a layer whose
`enabledRef.current` is `enabled` and whose `containerRef.current` is
`root?` (`none` models a null ref, with the subtree of the container
supplied for the walker).  `relatedTarget` is the event's
`relatedTarget` (`none` = null, i.e. focus leaving the document).
Returns the DOM actions in order: the early returns perform none; the
`event.relatedTarget === document.body` branch performs `preventDefault`
and `root.focus()`; a destination outside the container additionally
invokes `wrapFocus`, which focuses the wrapped element. -/
def handleFocusOut (enabled : Bool) (root? : Option Subtree) (doc : DocModel)
    (relatedTarget : Option Element) : List FAction :=
  if !enabled then []
  else match root? with
  | none => []
  | some root =>
    let newFocusElement := ((relatedTarget).orElse (fun _ => doc.activeElement)).getD doc.body
    let pre : List FAction :=
      if relatedTarget = some doc.body then [FAction.preventDefault, FAction.focus root.root]
      else []
    if contains root.root newFocusElement then pre
    else pre ++ [FAction.focus (wrapFocus root newFocusElement false)]

/-- Whether an action is performed synchronously or scheduled for a later
tick.  The source's only deferral primitive around a focus-return
assignment would be an explicit scheduling call (as in
`Promise.resolve().then(...)`); a direct `.focus()` invocation inside the
effect cleanup is synchronous. -/
inductive Timing where
  | sync
  | deferred
deriving DecidableEq, Repr

/-- The cleanup function returned by the layout effect of
`useFocusReturn(returnRef, disabledRef)` in `useFocusLock.tsx`, run at
layer teardown.  `disabledRef` is `none` when no ref was passed and
`some b` for a ref whose `current` is `b`; `returnRef` likewise holds an
`Option Element` for its `current`; `target` is the captured
`document.activeElement` from mount time.  Returns the focus assignments
the cleanup performs, each tagged with its timing. -/
def useFocusReturnCleanup (disabledRef : Option Bool) (returnRef : Option (Option Element))
    (target : Option Element) : List (Timing × Element) :=
  if disabledRef.getD false then []
  else match returnRef with
  | some (some el) => [(Timing.sync, el)]
  | _ =>
    match target with
    | some tgt => [(Timing.sync, tgt)]
    | none => []

/-! ### Trace projection lemmas -/

theorem callsOf_append (e1 e2 : List Ev) :
    callsOf (e1 ++ e2) = callsOf e1 ++ callsOf e2 := by
  induction e1 with
  | nil => rfl
  | cons e es ih => cases e <;> simp [callsOf, ih]

theorem notifiesOf_append (e1 e2 : List Ev) :
    notifiesOf (e1 ++ e2) = notifiesOf e1 ++ notifiesOf e2 := by
  induction e1 with
  | nil => rfl
  | cons e es ih => cases e <;> simp [notifiesOf, ih]

theorem callsOf_map_notify (L : List Nat) (b : Bool) :
    callsOf (L.map (fun l => Ev.notify l b)) = [] := by
  induction L with
  | nil => rfl
  | cons x xs ih => simp [callsOf, ih]

theorem callsOf_emitEvs (s : LockStack) : callsOf (emitEvs s) = [] :=
  callsOf_map_notify s.listeners (isActive s)

theorem notifiesOf_map_notify (L : List Nat) (b : Bool) :
    notifiesOf (L.map (fun l => Ev.notify l b)) = L.map (fun l => (l, b)) := by
  induction L with
  | nil => rfl
  | cons x xs ih => simp [notifiesOf, ih]

theorem notifiesOf_emitEvs (s : LockStack) :
    notifiesOf (emitEvs s) = s.listeners.map (fun l => (l, isActive s)) :=
  notifiesOf_map_notify s.listeners (isActive s)

theorem callsTo_append (c : Nat) (a b : List (Nat × Bool)) :
    callsTo c (a ++ b) = callsTo c a ++ callsTo c b := by
  induction a with
  | nil => rfl
  | cons x xs ih =>
    by_cases h : x.1 == c <;> simp [callsTo, h, ih]

theorem callsTo_single_self (c : Nat) (b : Bool) : callsTo c [(c, b)] = [b] := by
  simp [callsTo]

theorem callsTo_single_other (c c2 : Nat) (b : Bool) (h : c2 ≠ c) :
    callsTo c [(c2, b)] = [] := by
  simp [callsTo, h]

/-! ### List helper lemmas -/

theorem eq_dropLast_append {α : Type} (l : List α) (t : α) (h : l.getLast? = some t) :
    l = l.dropLast ++ [t] := by
  induction l with
  | nil => simp at h
  | cons a l2 ih =>
    cases l2 with
    | nil => simp_all
    | cons a2 l3 =>
      rw [List.getLast?_cons_cons] at h
      have := ih h
      simpa using congrArg (a :: ·) this

theorem getLast?_ne_nil {α : Type} (l : List α) (t : α) (h : l.getLast? = some t) :
    l ≠ [] := by
  intro he
  subst he
  simp at h

/-! ### Lemmas about the `toggleLayer` mutations -/

theorem setEnabledLast_eq (ls : List Lock) (t : Lock) (b : Bool) (h : ls.getLast? = some t) :
    setEnabledLast ls b = ls.dropLast ++ [{ t with enabled := b }] := by
  induction ls with
  | nil => simp at h
  | cons a l2 ih =>
    cases l2 with
    | nil =>
      simp only [List.getLast?_singleton, Option.some.injEq] at h
      subst h
      rfl
    | cons a2 l3 =>
      rw [List.getLast?_cons_cons] at h
      simp only [setEnabledLast, ih h, List.dropLast_cons₂, List.cons_append]

theorem setEnabledLast_concat (ls : List Lock) (x : Lock) (b : Bool) :
    setEnabledLast (ls ++ [x]) b = ls ++ [{ x with enabled := b }] := by
  rw [setEnabledLast_eq (ls ++ [x]) x b (by simp), List.dropLast_concat]

theorem map_uid_setEnabledLast (ls : List Lock) (b : Bool) :
    (setEnabledLast ls b).map (fun l => l.uid) = ls.map (fun l => l.uid) := by
  cases h : ls.getLast? with
  | none =>
    cases ls with
    | nil => rfl
    | cons a l2 => simp [List.getLast?_eq_none_iff] at h
  | some t =>
    rw [setEnabledLast_eq ls t b h]
    conv_rhs => rw [eq_dropLast_append ls t h]
    simp

theorem map_cb_setEnabledLast (ls : List Lock) (b : Bool) :
    (setEnabledLast ls b).map (fun l => l.cb) = ls.map (fun l => l.cb) := by
  cases h : ls.getLast? with
  | none =>
    cases ls with
    | nil => rfl
    | cons a l2 => simp [List.getLast?_eq_none_iff] at h
  | some t =>
    rw [setEnabledLast_eq ls t b h]
    conv_rhs => rw [eq_dropLast_append ls t h]
    simp

theorem map_uid_setEnabledFirstMatch (ls : List Lock) (uid : String) (b : Bool) :
    (setEnabledFirstMatch ls uid b).map (fun l => l.uid) = ls.map (fun l => l.uid) := by
  induction ls with
  | nil => rfl
  | cons a l ih =>
    by_cases h : a.uid == uid <;> simp [setEnabledFirstMatch, h, ih]

theorem filter_ne_setEnabledFirstMatch (ls : List Lock) (uid : String) (b : Bool) :
    (setEnabledFirstMatch ls uid b).filter (fun l => l.uid != uid)
      = ls.filter (fun l => l.uid != uid) := by
  induction ls with
  | nil => rfl
  | cons a l ih =>
    by_cases h : a.uid == uid
    · simp [setEnabledFirstMatch, h, List.filter_cons, bne]
    · have ih2 := ih
      simp only [bne] at ih2
      simp [setEnabledFirstMatch, h, List.filter_cons, bne, ih2]

theorem getLast?_uid_setEnabledFirstMatch (ls : List Lock) (uid : String) (b : Bool) :
    ((setEnabledFirstMatch ls uid b).getLast?).map (fun l => l.uid)
      = (ls.getLast?).map (fun l => l.uid) := by
  have h := map_uid_setEnabledFirstMatch ls uid b
  rw [← List.getLast?_map, ← List.getLast?_map, h]

/-! ### Closed forms of `add` and `remove` -/

theorem add_locks (s : LockStack) (uid : String) (cb : Nat) :
    (add s uid cb).1.locks
      = setEnabledLast s.locks false ++ [{ uid := uid, cb := cb, enabled := true }] := by
  simp [add, setEnabledLast_concat]

theorem add_listeners (s : LockStack) (uid : String) (cb : Nat) :
    (add s uid cb).1.listeners = s.listeners := by
  simp [add]

theorem callsOf_add (s : LockStack) (uid : String) (cb : Nat) :
    callsOf (add s uid cb).2
      = (match s.locks.getLast? with
         | some t => [(t.cb, false)]
         | none => []) ++ [(cb, true)] := by
  unfold add
  cases h : current s with
  | none =>
    unfold current at h
    simp [h, callsOf_append, callsOf_emitEvs, callsOf]
  | some t =>
    unfold current at h
    simp [h, callsOf_append, callsOf_emitEvs, callsOf]

theorem notifiesOf_add (s : LockStack) (uid : String) (cb : Nat) :
    notifiesOf (add s uid cb).2
      = s.listeners.map (fun l => (l, isActive (add s uid cb).1)) := by
  unfold add
  cases h : current s with
  | none => simp [h, notifiesOf_append, notifiesOf_emitEvs, notifiesOf]
  | some t => simp [h, notifiesOf_append, notifiesOf_emitEvs, notifiesOf]

theorem wasCurrent_eq (s : LockStack) (uid : String) :
    (match (setEnabledFirstMatch s.locks uid false).getLast? with
     | some t => t.uid == uid
     | none => false) = wasCur s uid := by
  unfold wasCur
  have h := getLast?_uid_setEnabledFirstMatch s.locks uid false
  cases h1 : (setEnabledFirstMatch s.locks uid false).getLast? with
  | none =>
    cases h2 : s.locks.getLast? with
    | none => rfl
    | some t => rw [h1, h2] at h; simp at h
  | some t =>
    cases h2 : s.locks.getLast? with
    | none => rw [h1, h2] at h; simp at h
    | some t2 =>
      rw [h1, h2] at h
      simp only [Option.map_some', Option.some.injEq] at h
      simp [h]

theorem remove_locks (s : LockStack) (uid : String) :
    (remove s uid).1.locks
      = if wasCur s uid then
          setEnabledLast (s.locks.filter (fun l => l.uid != uid)) true
        else
          s.locks.filter (fun l => l.uid != uid) := by
  simp only [remove]
  rw [wasCurrent_eq, filter_ne_setEnabledFirstMatch]
  by_cases hw : wasCur s uid
  · simp only [hw, if_true]
    cases h : (s.locks.filter (fun l => l.uid != uid)).getLast? with
    | none =>
      have he : s.locks.filter (fun l => l.uid != uid) = [] := by
        cases hc : s.locks.filter (fun l => l.uid != uid) with
        | nil => rfl
        | cons a l2 => rw [hc] at h; simp [List.getLast?_eq_none_iff] at h
      simp [he, setEnabledLast]
    | some t => simp
  · simp [hw]

theorem remove_listeners (s : LockStack) (uid : String) :
    (remove s uid).1.listeners = s.listeners := by
  simp only [remove]

theorem callsOf_remove (s : LockStack) (uid : String) :
    callsOf (remove s uid).2
      = (match s.locks.find? (fun l => l.uid == uid) with
         | some l => [(l.cb, false)]
         | none => [])
        ++ (if wasCur s uid then
              match (s.locks.filter (fun l => l.uid != uid)).getLast? with
              | some t => [(t.cb, true)]
              | none => []
            else []) := by
  simp only [remove]
  rw [wasCurrent_eq, filter_ne_setEnabledFirstMatch]
  by_cases hw : wasCur s uid
  · simp only [hw, if_true]
    cases hf : s.locks.find? (fun l => l.uid == uid) with
    | none =>
      cases h : (s.locks.filter (fun l => l.uid != uid)).getLast? <;>
        simp [callsOf_append, callsOf_emitEvs, callsOf]
    | some l =>
      cases h : (s.locks.filter (fun l => l.uid != uid)).getLast? <;>
        simp [callsOf_append, callsOf_emitEvs, callsOf]
  · simp only [hw, if_false, Bool.false_eq_true]
    cases hf : s.locks.find? (fun l => l.uid == uid) <;>
      simp [callsOf_append, callsOf_emitEvs, callsOf]

theorem applyOp_listeners (s : LockStack) (op : Op) :
    (applyOp s op).1.listeners = s.listeners := by
  cases op with
  | add uid cb => exact add_listeners s uid cb
  | remove uid => exact remove_listeners s uid

/-! ### The enabled-top invariant `InvL` -/

theorem invL_dropLast_disabled (ls : List Lock) (h : InvL ls) :
    ∀ l ∈ ls.dropLast, l.enabled = false := by
  induction ls with
  | nil => intro l hl; simp at hl
  | cons a l2 ih =>
    cases l2 with
    | nil => intro l hl; simp at hl
    | cons a2 l3 =>
      simp only [InvL] at h
      intro l hl
      simp only [List.dropLast_cons₂, List.mem_cons] at hl
      rcases hl with rfl | hl
      · exact h.1
      · exact ih h.2 l (by simpa using hl)

theorem invL_getLast_enabled (ls : List Lock) (t : Lock) (h : InvL ls)
    (hl : ls.getLast? = some t) : t.enabled = true := by
  induction ls with
  | nil => simp at hl
  | cons a l2 ih =>
    cases l2 with
    | nil =>
      simp only [List.getLast?_singleton, Option.some.injEq] at hl
      subst hl
      exact h
    | cons a2 l3 =>
      rw [List.getLast?_cons_cons] at hl
      exact ih h.2 hl

theorem invL_eq_last_or_disabled (ls : List Lock) (t : Lock) (h : InvL ls)
    (hl : ls.getLast? = some t) : ∀ l ∈ ls, l = t ∨ l.enabled = false := by
  intro l hmem
  have hdecomp := eq_dropLast_append ls t hl
  rw [hdecomp] at hmem
  rcases List.mem_append.mp hmem with hm | hm
  · exact Or.inr (invL_dropLast_disabled ls h l hm)
  · simp at hm; exact Or.inl hm

theorem mem_setEnabledLast_false (ls : List Lock) (h : InvL ls) :
    ∀ l ∈ setEnabledLast ls false, l.enabled = false := by
  cases hl : ls.getLast? with
  | none =>
    cases ls with
    | nil => intro l hm; simp [setEnabledLast] at hm
    | cons a l2 => simp [List.getLast?_eq_none_iff] at hl
  | some t =>
    rw [setEnabledLast_eq ls t false hl]
    intro l hm
    rcases List.mem_append.mp hm with hm | hm
    · exact invL_dropLast_disabled ls h l hm
    · simp at hm; subst hm; rfl

theorem invL_append_singleton (m : List Lock) (x : Lock)
    (h : ∀ l ∈ m, l.enabled = false) (hx : x.enabled = true) : InvL (m ++ [x]) := by
  induction m with
  | nil => simpa [InvL] using hx
  | cons a m2 ih =>
    cases m2 with
    | nil =>
      simp only [List.cons_append, List.nil_append]
      exact ⟨h a (by simp), by simpa [InvL] using hx⟩
    | cons b m3 =>
      simp only [List.cons_append]
      refine ⟨h a (by simp), ?_⟩
      have := ih (fun l hl => h l (List.mem_cons_of_mem a hl))
      simpa using this

theorem invL_setEnabledLast_true (m : List Lock)
    (h : ∀ l ∈ m, l.enabled = false) : InvL (setEnabledLast m true) := by
  cases hl : m.getLast? with
  | none =>
    cases m with
    | nil => simp [setEnabledLast, InvL]
    | cons a l2 => simp [List.getLast?_eq_none_iff] at hl
  | some t =>
    rw [setEnabledLast_eq m t true hl]
    refine invL_append_singleton _ _ ?_ rfl
    intro l hm
    have hm2 : l ∈ m.dropLast ++ [t] := List.mem_append_left _ hm
    rw [← eq_dropLast_append m t hl] at hm2
    exact h l hm2

theorem invL_filter_keep_last (ls : List Lock) (t : Lock) (p : Lock → Bool)
    (h : InvL ls) (hl : ls.getLast? = some t) (hp : p t = true) :
    InvL (ls.filter p) ∧ (ls.filter p).getLast? = some t := by
  induction ls with
  | nil => simp at hl
  | cons a l2 ih =>
    cases l2 with
    | nil =>
      simp only [List.getLast?_singleton, Option.some.injEq] at hl
      subst hl
      simp [List.filter_cons, hp, InvL, h]
    | cons a2 l3 =>
      rw [List.getLast?_cons_cons] at hl
      obtain ⟨hinv, hlast⟩ := ih h.2 hl
      have hne : (a2 :: l3).filter p ≠ [] := getLast?_ne_nil _ t hlast
      by_cases hpa : p a = true
      · rw [List.filter_cons_of_pos hpa]
        cases hc : (a2 :: l3).filter p with
        | nil => exact absurd hc hne
        | cons b m =>
          rw [hc] at hinv hlast
          refine ⟨?_, ?_⟩
          · simpa [InvL] using And.intro h.1 hinv
          · rw [List.getLast?_cons_cons]; exact hlast
      · rw [List.filter_cons_of_neg (by simpa using hpa)]
        exact ⟨hinv, hlast⟩

theorem filter_getLast_dropped (ls : List Lock) (t : Lock) (p : Lock → Bool)
    (hl : ls.getLast? = some t) (hp : p t = false) :
    ls.filter p = ls.dropLast.filter p := by
  conv_lhs => rw [eq_dropLast_append ls t hl]
  rw [List.filter_append]
  simp [List.filter_cons, hp]

theorem invL_filter_enabled_eq (ls : List Lock) (h : InvL ls) :
    ls.filter (fun l => l.enabled)
      = match ls.getLast? with
        | some t => [t]
        | none => [] := by
  induction ls with
  | nil => rfl
  | cons a l2 ih =>
    cases l2 with
    | nil =>
      simp only [InvL] at h
      simp [List.filter_cons, h]
    | cons a2 l3 =>
      simp only [InvL] at h
      rw [List.getLast?_cons_cons]
      rw [List.filter_cons_of_neg (by simp [h.1])]
      exact ih h.2

theorem invL_filter_enabled_len (ls : List Lock) (h : InvL ls) :
    (ls.filter (fun l => l.enabled)).length ≤ 1 := by
  rw [invL_filter_enabled_eq ls h]
  cases ls.getLast? <;> simp

theorem invL_enabled_mem_getLast (ls : List Lock) (h : InvL ls) :
    ∀ l ∈ ls, l.enabled = true → ls.getLast? = some l := by
  intro l hmem hen
  cases hl : ls.getLast? with
  | none =>
    cases ls with
    | nil => simp at hmem
    | cons a l2 => simp [List.getLast?_eq_none_iff] at hl
  | some t =>
    rcases invL_eq_last_or_disabled ls t h hl l hmem with rfl | hdis
    · rfl
    · rw [hen] at hdis; exact absurd hdis (by simp)

/-! ### Preservation of `InvL` by `add` and `remove` -/

theorem invL_add (s : LockStack) (uid : String) (cb : Nat) (h : InvL s.locks) :
    InvL (add s uid cb).1.locks := by
  rw [add_locks]
  exact invL_append_singleton _ _ (mem_setEnabledLast_false s.locks h) rfl

theorem wasCur_of_getLast (s : LockStack) (uid : String) (t : Lock)
    (h : s.locks.getLast? = some t) : wasCur s uid = (t.uid == uid) := by
  unfold wasCur
  rw [h]

theorem wasCur_of_getLast_none (s : LockStack) (uid : String)
    (h : s.locks.getLast? = none) : wasCur s uid = false := by
  unfold wasCur
  rw [h]

theorem invL_remove (s : LockStack) (uid : String) (h : InvL s.locks) :
    InvL (remove s uid).1.locks := by
  rw [remove_locks]
  by_cases hw : wasCur s uid
  · simp only [hw, if_true]
    cases hl : s.locks.getLast? with
    | none => rw [wasCur_of_getLast_none s uid hl] at hw; simp at hw
    | some t =>
      rw [wasCur_of_getLast s uid t hl] at hw
      refine invL_setEnabledLast_true _ ?_
      intro l hm
      have hmem := List.mem_of_mem_filter hm
      have hpl := List.of_mem_filter hm
      rcases invL_eq_last_or_disabled s.locks t h hl l hmem with rfl | hdis
      · simp [bne, hw] at hpl
      · exact hdis
  · simp only [hw, if_false]
    cases hl : s.locks.getLast? with
    | none =>
      have : s.locks = [] := by
        cases hc : s.locks with
        | nil => rfl
        | cons a l2 => rw [hc] at hl; simp [List.getLast?_eq_none_iff] at hl
      simp [this, InvL]
    | some t =>
      rw [wasCur_of_getLast s uid t hl] at hw
      simp only [Bool.not_eq_true] at hw
      exact (invL_filter_keep_last s.locks t _ h hl (by simp [bne, hw])).1

theorem invL_applyOp (s : LockStack) (op : Op) (h : InvL s.locks) :
    InvL (applyOp s op).1.locks := by
  cases op with
  | add uid cb => exact invL_add s uid cb h
  | remove uid => exact invL_remove s uid h

theorem invL_run (ops : List Op) (s : LockStack) (h : InvL s.locks) :
    InvL (run s ops).1.locks := by
  induction ops generalizing s with
  | nil => exact h
  | cons op ops ih => exact ih (applyOp s op).1 (invL_applyOp s op h)

theorem notifiesOf_remove (s : LockStack) (uid : String) :
    notifiesOf (remove s uid).2
      = s.listeners.map (fun l => (l, isActive (remove s uid).1)) := by
  simp only [remove]
  by_cases hw : (match (setEnabledFirstMatch s.locks uid false).getLast? with
     | some t => t.uid == uid
     | none => false) = true
  · simp only [hw, if_true]
    cases hf : s.locks.find? (fun l => l.uid == uid) <;>
      cases h : ((setEnabledFirstMatch s.locks uid false).filter (fun l => l.uid != uid)).getLast? <;>
        simp [notifiesOf_append, notifiesOf_emitEvs, notifiesOf]
  · simp only [Bool.not_eq_true] at hw
    cases hf : s.locks.find? (fun l => l.uid == uid) <;>
      simp [hw, notifiesOf_append, notifiesOf_emitEvs, notifiesOf]

/-! ### The active-set abstraction of a call trace -/

theorem getLast?_cons {α : Type} (a : α) (l : List α) :
    (a :: l).getLast?
      = match l.getLast? with
        | some b => some b
        | none => some a := by
  cases l with
  | nil => rfl
  | cons b l2 =>
    rw [List.getLast?_cons_cons]
    cases h : (b :: l2).getLast? with
    | none => simp [List.getLast?_eq_none_iff] at h
    | some c => rfl

theorem activeAfter_cons (S : Finset Nat) (x : Nat × Bool) (cs : List (Nat × Bool)) :
    activeAfter S (x :: cs) = activeAfter (applyCall S x) cs := rfl

theorem activeAfter_append (S : Finset Nat) (a b : List (Nat × Bool)) :
    activeAfter S (a ++ b) = activeAfter (activeAfter S a) b := by
  unfold activeAfter
  exact List.foldl_append applyCall S a b

theorem mem_activeAfter (cs : List (Nat × Bool)) (c : Nat) : ∀ S : Finset Nat,
    (c ∈ activeAfter S cs
      ↔ (lastVal c cs = some true ∨ (lastVal c cs = none ∧ c ∈ S))) := by
  induction cs with
  | nil => intro S; simp [activeAfter, lastVal, callsTo]
  | cons x t ih =>
    intro S
    rw [activeAfter_cons, ih (applyCall S x)]
    by_cases hx : x.1 == c
    · have hc : callsTo c (x :: t) = x.2 :: callsTo c t := by simp [callsTo, hx]
      unfold lastVal
      rw [hc, getLast?_cons]
      cases hl : (callsTo c t).getLast? with
      | some b => simp
      | none =>
        have hxc : x.1 = c := by simpa using hx
        cases hb : x.2 <;>
          simp [applyCall, hb, hxc, Finset.mem_insert, Finset.mem_erase]
    · have hc : callsTo c (x :: t) = callsTo c t := by simp [callsTo, hx]
      unfold lastVal
      rw [hc]
      have hxc : x.1 ≠ c := by simpa using hx
      have hmm : c ∈ applyCall S x ↔ c ∈ S := by
        cases hb : x.2 <;>
          simp [applyCall, hb, Finset.mem_insert, Finset.mem_erase, Ne.symm hxc, hxc]
      simp only [hmm]

theorem safeFrom_card (p q : List (Nat × Bool)) : ∀ S : Finset Nat, S.card ≤ 1 →
    safeFrom S (p ++ q) → (activeAfter S p).card ≤ 1 := by
  induction p with
  | nil => intro S hS _; exact hS
  | cons x p2 ih =>
    intro S hS h
    exact ih (applyCall S x) h.1 h.2

theorem safeFrom_append (a b : List (Nat × Bool)) : ∀ S : Finset Nat,
    safeFrom S a → safeFrom (activeAfter S a) b → safeFrom S (a ++ b) := by
  induction a with
  | nil => intro S _ hb; exact hb
  | cons x a2 ih =>
    intro S ha hb
    exact ⟨ha.1, ih (applyCall S x) ha.2 hb⟩

/-- C1.  For every sequence of `add`/`remove` operations on a `LockStack`
(run from a fresh stack, hence after each operation of any sequence), at
most one registered lock record has `enabled = true`, and every enabled
record is the record returned by `current()`, the top of the stack. -/
theorem c1_at_most_one_enabled_and_it_is_current (ops : List Op) :
    (((stateAfter emptyStack ops).locks.filter (fun l => l.enabled)).length ≤ 1)
    ∧ (∀ l ∈ (stateAfter emptyStack ops).locks, l.enabled = true →
        current (stateAfter emptyStack ops) = some l) := by
  have hinv : InvL (stateAfter emptyStack ops).locks :=
    invL_run ops emptyStack trivial
  refine ⟨invL_filter_enabled_len _ hinv, ?_⟩
  intro l hm he
  exact invL_enabled_mem_getLast _ hinv l hm he

/-! ### Helpers for the trace-shape invariant -/

theorem mem_of_getLast (l : List Lock) (t : Lock) (h : l.getLast? = some t) : t ∈ l := by
  rw [eq_dropLast_append l t h]
  exact List.mem_append_right _ (by simp)

theorem nodup_append_singleton {α : Type} (l : List α) (a : α) (h1 : l.Nodup) (h2 : a ∉ l) :
    (l ++ [a]).Nodup := by
  induction l with
  | nil => simp
  | cons x xs ih =>
    simp only [List.nodup_cons] at h1
    simp only [List.cons_append, List.nodup_cons]
    refine ⟨?_, ih h1.2 (fun hm => h2 (List.mem_cons_of_mem x hm))⟩
    intro hmem
    rcases List.mem_append.mp hmem with hm | hm
    · exact h1.1 hm
    · simp only [List.mem_singleton] at hm
      exact h2 (hm ▸ List.mem_cons_self x xs)

theorem enabledCbs_eq (s : LockStack) (h : InvL s.locks) :
    enabledCbs s
      = match s.locks.getLast? with
        | some t => {t.cb}
        | none => ∅ := by
  unfold enabledCbs
  rw [invL_filter_enabled_eq s.locks h]
  cases s.locks.getLast? <;> simp

theorem regShape_append (L : List Bool) (e b : Bool) (h : RegShape L e) (hne : e ≠ b) :
    RegShape (L ++ [b]) b := by
  obtain ⟨hch, hhead, hlast⟩ := h
  cases L with
  | nil => simp at hhead
  | cons a L2 =>
    refine ⟨?_, by simpa using hhead, List.getLast?_concat _⟩
    rw [List.chain'_append]
    refine ⟨hch, List.chain'_singleton b, ?_⟩
    intro x hx y hy
    simp only [List.head?_cons, Option.mem_def, Option.some.injEq] at hy
    rw [hlast] at hx
    simp only [Option.mem_def, Option.some.injEq] at hx
    subst hx; subst hy
    exact hne

theorem removedShape_append (L : List Bool) (e : Bool) (h : RegShape L e) :
    RemovedShape (L ++ [false]) :=
  ⟨L, rfl, h.1, h.2.1⟩

theorem cb_inj (ls : List Lock) (h : (ls.map (fun l => l.cb)).Nodup)
    (a b : Lock) (ha : a ∈ ls) (hb : b ∈ ls) (hcb : a.cb = b.cb) : a = b :=
  List.inj_on_of_nodup_map h ha hb hcb

theorem callsTo_pair_ne (c c2 : Nat) (b : Bool) (xs : List (Nat × Bool)) (h : c2 ≠ c) :
    callsTo c ((c2, b) :: xs) = callsTo c xs := by
  simp [callsTo, h]

theorem callsTo_pair_eq (c : Nat) (b : Bool) (xs : List (Nat × Bool)) :
    callsTo c ((c, b) :: xs) = b :: callsTo c xs := by
  simp [callsTo]

theorem minv_add (s : LockStack) (used : List Nat) (tr : List (Nat × Bool))
    (uid : String) (cb : Nat) (hM : MInv s used tr)
    (hu : uid ∉ s.locks.map (fun l => l.uid)) (hc : cb ∉ used) :
    MInv (add s uid cb).1 (cb :: used) (tr ++ callsOf (add s uid cb).2)
    ∧ safeFrom (enabledCbs s) (callsOf (add s uid cb).2) := by
  obtain ⟨h1, h2, h3, h4, h5, h6, h7, h8⟩ := hM
  have hcb_not_mem : cb ∉ s.locks.map (fun l => l.cb) := by
    intro hmem
    obtain ⟨l, hl, hlcb⟩ := List.mem_map.mp hmem
    exact hc (hlcb ▸ h4 l hl)
  cases hl : s.locks.getLast? with
  | none =>
    have hnil : s.locks = [] := by
      cases hx : s.locks with
      | nil => rfl
      | cons a l2 => rw [hx] at hl; simp [List.getLast?_eq_none_iff] at hl
    have hcalls : callsOf (add s uid cb).2 = [(cb, true)] := by
      rw [callsOf_add, hl]; rfl
    have hlocks : (add s uid cb).1.locks = [{ uid := uid, cb := cb, enabled := true }] := by
      rw [add_locks, hnil]; rfl
    have hE : enabledCbs s = ∅ := by rw [enabledCbs_eq s h1, hl]
    constructor
    · refine ⟨?_, ?_, ?_, ?_, ?_, ?_, ?_, ?_⟩
      · rw [hlocks]; exact rfl
      · rw [hlocks]; simp
      · rw [hlocks]; simp
      · rw [hlocks]; intro l hm; simp at hm; subst hm; simp
      · rw [hlocks]
        intro l hm
        simp only [List.mem_singleton] at hm
        subst hm
        rw [hcalls, callsTo_append, h7 cb hc, callsTo_pair_eq]
        exact ⟨List.chain'_singleton true, rfl, rfl⟩
      · intro c hcmem hcnot
        rw [hlocks] at hcnot
        simp only [List.map_cons, List.map_nil, List.mem_singleton] at hcnot
        have hcin : c ∈ used := by
          rcases List.mem_cons.mp hcmem with rfl | hcm
          · exact absurd rfl hcnot
          · exact hcm
        rw [hcalls, callsTo_append, callsTo_pair_ne c cb true [] (fun he => hcnot he.symm)]
        have : callsTo c ([] : List (Nat × Bool)) = [] := rfl
        rw [this, List.append_nil]
        exact h6 c hcin (by rw [hnil]; simp)
      · intro c hcnot
        have hne : c ≠ cb := fun he => hcnot (he ▸ List.mem_cons_self cb used)
        have hcu : c ∉ used := fun hm => hcnot (List.mem_cons_of_mem cb hm)
        rw [hcalls, callsTo_append, h7 c hcu, callsTo_pair_ne c cb true [] (fun he => hne he.symm)]
        rfl
      · have hlast2 : (add s uid cb).1.locks.getLast?
            = some { uid := uid, cb := cb, enabled := true } := by
          rw [hlocks]; rfl
        rw [enabledCbs_eq _ (invL_add s uid cb h1), hlast2, hcalls, activeAfter_append, ← h8, hE]
        simp [activeAfter, applyCall]
    · rw [hcalls, hE]
      exact ⟨by simp [applyCall], trivial⟩
  | some t =>
    have ht_mem : t ∈ s.locks := mem_of_getLast s.locks t hl
    have ht_en : t.enabled = true := invL_getLast_enabled s.locks t h1 hl
    have ht_cb_used : t.cb ∈ used := h4 t ht_mem
    have ht_ne_cb : t.cb ≠ cb := fun he => hc (he ▸ ht_cb_used)
    have hcalls : callsOf (add s uid cb).2 = [(t.cb, false), (cb, true)] := by
      rw [callsOf_add, hl]; rfl
    have hlocks : (add s uid cb).1.locks
        = (s.locks.dropLast ++ [{ t with enabled := false }])
          ++ [{ uid := uid, cb := cb, enabled := true }] := by
      rw [add_locks, setEnabledLast_eq s.locks t false hl]
    have hmapcb : (add s uid cb).1.locks.map (fun l => l.cb)
        = s.locks.map (fun l => l.cb) ++ [cb] := by
      rw [add_locks, List.map_append, map_cb_setEnabledLast]
      rfl
    have hmapuid : (add s uid cb).1.locks.map (fun l => l.uid)
        = s.locks.map (fun l => l.uid) ++ [uid] := by
      rw [add_locks, List.map_append, map_uid_setEnabledLast]
      rfl
    have hE : enabledCbs s = {t.cb} := by rw [enabledCbs_eq s h1, hl]
    have hcallsTo_new : ∀ c, callsTo c [(t.cb, false), (cb, true)]
        = (if t.cb = c then [false] else []) ++ (if cb = c then [true] else []) := by
      intro c
      by_cases hct : t.cb = c <;> by_cases hcc : cb = c <;>
        simp [callsTo, hct, hcc]
    constructor
    · refine ⟨invL_add s uid cb h1, ?_, ?_, ?_, ?_, ?_, ?_, ?_⟩
      · rw [hmapuid]
        exact nodup_append_singleton _ _ h2 hu
      · rw [hmapcb]
        exact nodup_append_singleton _ _ h3 hcb_not_mem
      · rw [hlocks]
        intro l hm
        rcases List.mem_append.mp hm with hm2 | hm2
        · rcases List.mem_append.mp hm2 with hm3 | hm3
          · have : l ∈ s.locks := by
              rw [eq_dropLast_append s.locks t hl]
              exact List.mem_append_left _ hm3
            exact List.mem_cons_of_mem cb (h4 l this)
          · simp only [List.mem_singleton] at hm3
            subst hm3
            exact List.mem_cons_of_mem cb ht_cb_used
        · simp only [List.mem_singleton] at hm2
          subst hm2
          exact List.mem_cons_self cb used
      · rw [hlocks]
        intro l hm
        rw [callsTo_append, hcalls, hcallsTo_new l.cb]
        rcases List.mem_append.mp hm with hm2 | hm2
        · rcases List.mem_append.mp hm2 with hm3 | hm3
          · have hlmem : l ∈ s.locks := by
              rw [eq_dropLast_append s.locks t hl]
              exact List.mem_append_left _ hm3
            have hld : l.enabled = false := invL_dropLast_disabled s.locks h1 l hm3
            have hlne_t : t.cb ≠ l.cb := by
              intro he
              have := cb_inj s.locks h3 t l ht_mem hlmem he
              rw [← this] at hld
              rw [ht_en] at hld
              exact absurd hld (by simp)
            have hlne_cb : cb ≠ l.cb := by
              intro he
              exact hc (he ▸ h4 l hlmem)
            rw [if_neg hlne_t, if_neg hlne_cb]
            simpa using h5 l hlmem
          · simp only [List.mem_singleton] at hm3
            subst hm3
            show RegShape (callsTo t.cb tr
              ++ ((if t.cb = t.cb then [false] else [])
                ++ if cb = t.cb then [true] else [])) false
            rw [if_pos rfl, if_neg (fun (he : cb = t.cb) => ht_ne_cb he.symm), List.append_nil]
            exact regShape_append _ true false (ht_en ▸ h5 t ht_mem) (by simp)
        · simp only [List.mem_singleton] at hm2
          subst hm2
          show RegShape (callsTo cb tr
            ++ ((if t.cb = cb then [false] else [])
              ++ if cb = cb then [true] else [])) true
          rw [if_neg ht_ne_cb, if_pos rfl, h7 cb hc]
          exact ⟨List.chain'_singleton true, rfl, rfl⟩
      · intro c hcmem hcnot
        rw [hmapcb] at hcnot
        simp only [List.mem_append, List.mem_singleton, not_or] at hcnot
        have hcin : c ∈ used := by
          rcases List.mem_cons.mp hcmem with rfl | hcm
          · exact absurd rfl hcnot.2
          · exact hcm
        rw [callsTo_append, hcalls, hcallsTo_new c]
        have hct : t.cb ≠ c := by
          intro he
          exact hcnot.1 (he ▸ List.mem_map_of_mem (fun l => l.cb) ht_mem)
        rw [if_neg hct, if_neg (fun (he : cb = c) => hcnot.2 he.symm)]
        simpa using h6 c hcin hcnot.1
      · intro c hcnot
        have hne : c ≠ cb := fun he => hcnot (he ▸ List.mem_cons_self cb used)
        have hcu : c ∉ used := fun hm => hcnot (List.mem_cons_of_mem cb hm)
        rw [callsTo_append, hcalls, hcallsTo_new c, h7 c hcu]
        rw [if_neg (fun (he : t.cb = c) => hcu (he ▸ ht_cb_used)),
          if_neg (fun (he : cb = c) => hne he.symm)]
        rfl
      · have hlast2 : (add s uid cb).1.locks.getLast?
            = some { uid := uid, cb := cb, enabled := true } := by
          rw [hlocks]; simp
        rw [enabledCbs_eq _ (invL_add s uid cb h1), hlast2, hcalls, activeAfter_append, ← h8, hE]
        show ({cb} : Finset Nat) = insert cb (({t.cb} : Finset Nat).erase t.cb)
        rw [Finset.erase_singleton]
        simp
    · rw [hcalls, hE]
      refine ⟨?_, ?_, trivial⟩
      · show (({t.cb} : Finset Nat).erase t.cb).card ≤ 1
        rw [Finset.erase_singleton]
        simp
      · show (insert cb (({t.cb} : Finset Nat).erase t.cb)).card ≤ 1
        rw [Finset.erase_singleton]
        simp

theorem uid_inj (ls : List Lock) (h : (ls.map (fun l => l.uid)).Nodup)
    (a b : Lock) (ha : a ∈ ls) (hb : b ∈ ls) (huid : a.uid = b.uid) : a = b :=
  List.inj_on_of_nodup_map h ha hb huid

theorem cb_ne_of_dropLast (ls : List Lock) (t : Lock)
    (h3 : (ls.map (fun l => l.cb)).Nodup) (hl : ls.getLast? = some t) :
    ∀ l ∈ ls.dropLast, l.cb ≠ t.cb := by
  intro l hm he
  have hmap : ls.map (fun l => l.cb)
      = ls.dropLast.map (fun l => l.cb) ++ [t.cb] := by
    conv_lhs => rw [eq_dropLast_append ls t hl]
    rw [List.map_append]
    rfl
  rw [hmap] at h3
  have hd := (List.nodup_append.mp h3).2.2
  exact hd (List.mem_map_of_mem (fun l => l.cb) hm) (by simp [he])

theorem find?_uid_getLast (ls : List Lock) (t : Lock) (uid : String)
    (hnd : (ls.map (fun l => l.uid)).Nodup) (hl : ls.getLast? = some t)
    (ht : t.uid = uid) : ls.find? (fun l => l.uid == uid) = some t := by
  induction ls with
  | nil => simp at hl
  | cons a l2 ih =>
    cases l2 with
    | nil =>
      simp only [List.getLast?_singleton, Option.some.injEq] at hl
      subst hl
      exact List.find?_cons_of_pos _ (by simp [ht])
    | cons a2 l3 =>
      rw [List.getLast?_cons_cons] at hl
      have htmem : t ∈ a2 :: l3 := mem_of_getLast _ t hl
      have hand : a.uid ≠ uid := by
        intro he
        simp only [List.map_cons, List.nodup_cons] at hnd
        exact hnd.1 (by
          rw [he, ← ht]
          exact List.mem_map_of_mem (fun l => l.uid) htmem)
      rw [List.find?_cons_of_neg _ (by simp [hand])]
      refine ih ?_ hl
      rw [List.map_cons, List.nodup_cons] at hnd
      exact hnd.2

theorem filter_uid_dropLast (ls : List Lock) (t : Lock) (uid : String)
    (hnd : (ls.map (fun l => l.uid)).Nodup) (hl : ls.getLast? = some t)
    (ht : t.uid = uid) : ls.filter (fun l => l.uid != uid) = ls.dropLast := by
  conv_lhs => rw [eq_dropLast_append ls t hl]
  rw [List.filter_append]
  have h2 : List.filter (fun l => l.uid != uid) [t] = [] := by
    simp [List.filter_cons, bne, ht]
  rw [h2, List.append_nil]
  apply List.filter_eq_self.mpr
  intro l hm
  have hmap : ls.map (fun l => l.uid)
      = ls.dropLast.map (fun l => l.uid) ++ [t.uid] := by
    conv_lhs => rw [eq_dropLast_append ls t hl]
    rw [List.map_append]
    rfl
  rw [hmap] at hnd
  have hd := (List.nodup_append.mp hnd).2.2
  have hne : l.uid ≠ uid := by
    intro he
    exact hd (List.mem_map_of_mem (fun l => l.uid) hm) (by simp [he, ht])
  simp [bne, hne]

theorem minv_remove_notfound (s : LockStack) (used : List Nat) (tr : List (Nat × Bool))
    (uid : String) (hM : MInv s used tr)
    (hf : s.locks.find? (fun l => l.uid == uid) = none) :
    MInv (remove s uid).1 used (tr ++ callsOf (remove s uid).2)
    ∧ safeFrom (enabledCbs s) (callsOf (remove s uid).2) := by
  have hall := List.find?_eq_none.mp hf
  have hwc : wasCur s uid = false := by
    unfold wasCur
    cases hl : s.locks.getLast? with
    | none => rfl
    | some t => simpa using hall t (mem_of_getLast _ t hl)
  have hfself : s.locks.filter (fun l => l.uid != uid) = s.locks :=
    List.filter_eq_self.mpr (fun l hm => by simpa [bne] using hall l hm)
  have hcalls : callsOf (remove s uid).2 = [] := by
    rw [callsOf_remove, hf, hwc]
    simp
  have hlocks2 : (remove s uid).1.locks = s.locks := by
    rw [remove_locks, hwc]
    simpa using hfself
  have hstate : (remove s uid).1 = s := by
    have he : (remove s uid).1 = ⟨(remove s uid).1.locks, (remove s uid).1.listeners⟩ := rfl
    rw [he, hlocks2, remove_listeners]
  rw [hstate, hcalls, List.append_nil]
  exact ⟨hM, trivial⟩

theorem minv_remove_top (s : LockStack) (used : List Nat) (tr : List (Nat × Bool))
    (uid : String) (hM : MInv s used tr) (hw : wasCur s uid = true) :
    MInv (remove s uid).1 used (tr ++ callsOf (remove s uid).2)
    ∧ safeFrom (enabledCbs s) (callsOf (remove s uid).2) := by
  obtain ⟨h1, h2, h3, h4, h5, h6, h7, h8⟩ := hM
  obtain ⟨t, hl, htuid⟩ : ∃ t, s.locks.getLast? = some t ∧ t.uid = uid := by
    unfold wasCur at hw
    cases hl : s.locks.getLast? with
    | none => rw [hl] at hw; simp at hw
    | some t => rw [hl] at hw; exact ⟨t, rfl, by simpa using hw⟩
  have ht_mem : t ∈ s.locks := mem_of_getLast _ t hl
  have ht_en : t.enabled = true := invL_getLast_enabled _ t h1 hl
  have hfind : s.locks.find? (fun l => l.uid == uid) = some t :=
    find?_uid_getLast _ t uid h2 hl htuid
  have hfilter : s.locks.filter (fun l => l.uid != uid) = s.locks.dropLast :=
    filter_uid_dropLast _ t uid h2 hl htuid
  have hE : enabledCbs s = {t.cb} := by rw [enabledCbs_eq s h1, hl]
  have ht_cb_used : t.cb ∈ used := h4 t ht_mem
  have hdl_dis : ∀ l ∈ s.locks.dropLast, l.enabled = false :=
    invL_dropLast_disabled s.locks h1
  have hdl_cb_ne : ∀ l ∈ s.locks.dropLast, l.cb ≠ t.cb :=
    cb_ne_of_dropLast s.locks t h3 hl
  have hsub_uid : ((s.locks.dropLast).map (fun l => l.uid)).Nodup :=
    h2.sublist ((List.dropLast_sublist s.locks).map _)
  have hsub_cb : ((s.locks.dropLast).map (fun l => l.cb)).Nodup :=
    h3.sublist ((List.dropLast_sublist s.locks).map _)
  have hmapcb_ls : s.locks.map (fun l => l.cb)
      = s.locks.dropLast.map (fun l => l.cb) ++ [t.cb] := by
    conv_lhs => rw [eq_dropLast_append s.locks t hl]
    rw [List.map_append]
    rfl
  cases hl2 : s.locks.dropLast.getLast? with
  | none =>
    have hdnil : s.locks.dropLast = [] := by
      cases hc : s.locks.dropLast with
      | nil => rfl
      | cons a l2 => rw [hc] at hl2; simp [List.getLast?_eq_none_iff] at hl2
    have hlocks2 : (remove s uid).1.locks = [] := by
      rw [remove_locks, hw]
      simp [hfilter, hdnil, setEnabledLast]
    have hcalls : callsOf (remove s uid).2 = [(t.cb, false)] := by
      rw [callsOf_remove, hfind, hw, hfilter, hdnil]
      simp
    refine ⟨⟨?_, ?_, ?_, ?_, ?_, ?_, ?_, ?_⟩, ?_⟩
    · rw [hlocks2]; exact trivial
    · rw [hlocks2]; simp
    · rw [hlocks2]; simp
    · rw [hlocks2]; intro l hm; simp at hm
    · rw [hlocks2]; intro l hm; simp at hm
    · intro c hcmem hcnot
      rw [hcalls, callsTo_append]
      by_cases hct : t.cb = c
      · subst hct
        rw [callsTo_pair_eq]
        exact removedShape_append _ t.enabled (h5 t ht_mem)
      · rw [callsTo_pair_ne c t.cb false [] hct]
        have hcl : c ∉ s.locks.map (fun l => l.cb) := by
          rw [hmapcb_ls, hdnil]
          simp only [List.map_nil, List.nil_append, List.mem_singleton]
          exact fun he => hct he.symm
        have := h6 c hcmem hcl
        simpa [callsTo] using this
    · intro c hcnot
      rw [hcalls, callsTo_append, h7 c hcnot,
        callsTo_pair_ne c t.cb false [] (fun (he : t.cb = c) => hcnot (he ▸ ht_cb_used))]
      rfl
    · have hcE : enabledCbs (remove s uid).1 = ∅ := by
        unfold enabledCbs
        rw [hlocks2]
        rfl
      rw [hcE, hcalls, activeAfter_append, ← h8, hE]
      show (∅ : Finset Nat) = ({t.cb} : Finset Nat).erase t.cb
      rw [Finset.erase_singleton]
    · rw [hcalls, hE]
      refine ⟨?_, trivial⟩
      show (({t.cb} : Finset Nat).erase t.cb).card ≤ 1
      rw [Finset.erase_singleton]
      simp
  | some t2 =>
    have ht2_mem_dl : t2 ∈ s.locks.dropLast := mem_of_getLast _ t2 hl2
    have ht2_mem : t2 ∈ s.locks := (List.dropLast_sublist s.locks).subset ht2_mem_dl
    have ht2_dis : t2.enabled = false := hdl_dis t2 ht2_mem_dl
    have ht2_ne : t2.cb ≠ t.cb := hdl_cb_ne t2 ht2_mem_dl
    have ht2_cb_used : t2.cb ∈ used := h4 t2 ht2_mem
    have hdd_cb_ne : ∀ l ∈ s.locks.dropLast.dropLast, l.cb ≠ t2.cb :=
      cb_ne_of_dropLast s.locks.dropLast t2 hsub_cb hl2
    have hlocks2 : (remove s uid).1.locks = setEnabledLast s.locks.dropLast true := by
      rw [remove_locks, hw]
      simp [hfilter]
    have hdecomp : setEnabledLast s.locks.dropLast true
        = s.locks.dropLast.dropLast ++ [{ t2 with enabled := true }] :=
      setEnabledLast_eq _ t2 true hl2
    have hcalls : callsOf (remove s uid).2 = [(t.cb, false), (t2.cb, true)] := by
      rw [callsOf_remove, hfind, hw, hfilter, hl2]
      simp
    have hcallsTo2 : ∀ c, callsTo c [(t.cb, false), (t2.cb, true)]
        = (if t.cb = c then [false] else []) ++ (if t2.cb = c then [true] else []) := by
      intro c
      by_cases hct : t.cb = c <;> by_cases hct2 : t2.cb = c <;>
        simp [callsTo, hct, hct2]
    refine ⟨⟨invL_remove s uid h1, ?_, ?_, ?_, ?_, ?_, ?_, ?_⟩, ?_⟩
    · rw [hlocks2, map_uid_setEnabledLast]
      exact hsub_uid
    · rw [hlocks2, map_cb_setEnabledLast]
      exact hsub_cb
    · rw [hlocks2, hdecomp]
      intro l hm
      rcases List.mem_append.mp hm with hm2 | hm2
      · exact h4 l ((List.dropLast_sublist s.locks).subset
          ((List.dropLast_sublist s.locks.dropLast).subset hm2))
      · simp only [List.mem_singleton] at hm2
        subst hm2
        exact ht2_cb_used
    · rw [hlocks2, hdecomp]
      intro l hm
      rw [callsTo_append, hcalls, hcallsTo2 l.cb]
      rcases List.mem_append.mp hm with hm2 | hm2
      · have hmdl : l ∈ s.locks.dropLast := (List.dropLast_sublist s.locks.dropLast).subset hm2
        have hmls : l ∈ s.locks := (List.dropLast_sublist s.locks).subset hmdl
        rw [if_neg (fun (he : t.cb = l.cb) => hdl_cb_ne l hmdl he.symm),
          if_neg (fun (he : t2.cb = l.cb) => hdd_cb_ne l hm2 he.symm)]
        simpa using h5 l hmls
      · simp only [List.mem_singleton] at hm2
        subst hm2
        show RegShape (callsTo t2.cb tr
          ++ ((if t.cb = t2.cb then [false] else [])
            ++ if t2.cb = t2.cb then [true] else [])) true
        rw [if_neg (fun (he : t.cb = t2.cb) => ht2_ne he.symm), if_pos rfl,
          List.nil_append]
        exact regShape_append _ false true (ht2_dis ▸ h5 t2 ht2_mem) (by simp)
    · intro c hcmem hcnot
      rw [hlocks2, map_cb_setEnabledLast] at hcnot
      rw [hcalls, callsTo_append, hcallsTo2 c]
      by_cases hct : t.cb = c
      · subst hct
        rw [if_pos rfl, if_neg ht2_ne, List.append_nil]
        exact removedShape_append _ t.enabled (h5 t ht_mem)
      · have hct2 : t2.cb ≠ c := by
          intro he
          exact hcnot (he ▸ List.mem_map_of_mem (fun l => l.cb) ht2_mem_dl)
        rw [if_neg hct, if_neg hct2, List.append_nil, List.append_nil]
        refine h6 c hcmem ?_
        rw [hmapcb_ls]
        intro hmm
        rcases List.mem_append.mp hmm with hm2 | hm2
        · exact hcnot hm2
        · simp only [List.mem_singleton] at hm2
          exact hct hm2.symm
    · intro c hcnot
      rw [hcalls, callsTo_append, h7 c hcnot, hcallsTo2 c,
        if_neg (fun (he : t.cb = c) => hcnot (he ▸ ht_cb_used)),
        if_neg (fun (he : t2.cb = c) => hcnot (he ▸ ht2_cb_used))]
      rfl
    · have hlast2 : (remove s uid).1.locks.getLast? = some { t2 with enabled := true } := by
        rw [hlocks2, hdecomp]
        simp
      rw [enabledCbs_eq _ (invL_remove s uid h1), hlast2, hcalls, activeAfter_append, ← h8, hE]
      show ({t2.cb} : Finset Nat)
        = insert t2.cb (({t.cb} : Finset Nat).erase t.cb)
      rw [Finset.erase_singleton]
      simp
    · rw [hcalls, hE]
      refine ⟨?_, ?_, trivial⟩
      · show (({t.cb} : Finset Nat).erase t.cb).card ≤ 1
        rw [Finset.erase_singleton]
        simp
      · show (insert t2.cb (({t.cb} : Finset Nat).erase t.cb)).card ≤ 1
        rw [Finset.erase_singleton]
        simp

theorem minv_remove_nontop (s : LockStack) (used : List Nat) (tr : List (Nat × Bool))
    (uid : String) (l0 : Lock) (hM : MInv s used tr)
    (hf : s.locks.find? (fun l => l.uid == uid) = some l0)
    (hw : wasCur s uid = false) :
    MInv (remove s uid).1 used (tr ++ callsOf (remove s uid).2)
    ∧ safeFrom (enabledCbs s) (callsOf (remove s uid).2) := by
  obtain ⟨h1, h2, h3, h4, h5, h6, h7, h8⟩ := hM
  have hl0_mem : l0 ∈ s.locks := List.mem_of_find?_eq_some hf
  have hl0_uid : l0.uid = uid := by simpa using List.find?_some hf
  obtain ⟨t, hl⟩ : ∃ t, s.locks.getLast? = some t := by
    cases hgl : s.locks.getLast? with
    | none =>
      cases hc : s.locks with
      | nil => rw [hc] at hl0_mem; simp at hl0_mem
      | cons a l2 => rw [hc] at hgl; simp [List.getLast?_eq_none_iff] at hgl
    | some t => exact ⟨t, rfl⟩
  have ht_mem : t ∈ s.locks := mem_of_getLast _ t hl
  have ht_en : t.enabled = true := invL_getLast_enabled _ t h1 hl
  have htuid_ne : t.uid ≠ uid := by
    rw [wasCur_of_getLast s uid t hl] at hw
    simpa using hw
  have hl0_ne_t : l0 ≠ t := fun he => htuid_ne (he ▸ hl0_uid)
  have hl0_dis : l0.enabled = false := by
    rcases invL_eq_last_or_disabled s.locks t h1 hl l0 hl0_mem with he | hdis
    · exact absurd he hl0_ne_t
    · exact hdis
  have hl0_cb_ne_t : l0.cb ≠ t.cb := by
    intro he
    exact hl0_ne_t (cb_inj s.locks h3 l0 t hl0_mem ht_mem he)
  have hl0_cb_used : l0.cb ∈ used := h4 l0 hl0_mem
  have hpt : (fun l => l.uid != uid) t = true := by simp [bne, htuid_ne]
  have hkeep := invL_filter_keep_last s.locks t (fun l => l.uid != uid) h1 hl hpt
  have hlocks2 : (remove s uid).1.locks = s.locks.filter (fun l => l.uid != uid) := by
    rw [remove_locks, hw]
    simp
  have hcalls : callsOf (remove s uid).2 = [(l0.cb, false)] := by
    rw [callsOf_remove, hf, hw]
    simp
  have hE : enabledCbs s = {t.cb} := by rw [enabledCbs_eq s h1, hl]
  have hmem_filter_cb : ∀ c, c ∈ s.locks.map (fun l => l.cb) → c ≠ l0.cb →
      c ∈ (s.locks.filter (fun l => l.uid != uid)).map (fun l => l.cb) := by
    intro c hcm hcne
    obtain ⟨l, hlm, hlcb⟩ := List.mem_map.mp hcm
    have hlne : l.uid ≠ uid := by
      intro he
      have : l = l0 := uid_inj s.locks h2 l l0 hlm hl0_mem (by rw [he, hl0_uid])
      exact hcne (by rw [← hlcb, this])
    refine List.mem_map.mpr ⟨l, ?_, hlcb⟩
    exact List.mem_filter.mpr ⟨hlm, by simp [bne, hlne]⟩
  refine ⟨⟨?_, ?_, ?_, ?_, ?_, ?_, ?_, ?_⟩, ?_⟩
  · rw [hlocks2]; exact hkeep.1
  · rw [hlocks2]
    exact h2.sublist ((List.filter_sublist s.locks).map _)
  · rw [hlocks2]
    exact h3.sublist ((List.filter_sublist s.locks).map _)
  · rw [hlocks2]
    intro l hm
    exact h4 l (List.mem_of_mem_filter hm)
  · rw [hlocks2]
    intro l hm
    have hlm : l ∈ s.locks := List.mem_of_mem_filter hm
    have hlp : l.uid ≠ uid := by
      have := List.of_mem_filter hm
      simpa [bne] using this
    have hlcb_ne : l0.cb ≠ l.cb := by
      intro he
      have : l0 = l := cb_inj s.locks h3 l0 l hl0_mem hlm he
      exact hlp (by rw [← this, hl0_uid])
    rw [hcalls, callsTo_append, callsTo_pair_ne l.cb l0.cb false [] hlcb_ne]
    simpa [callsTo] using h5 l hlm
  · intro c hcmem hcnot
    rw [hlocks2] at hcnot
    rw [hcalls, callsTo_append]
    by_cases hct : l0.cb = c
    · subst hct
      rw [callsTo_pair_eq]
      exact removedShape_append _ l0.enabled (h5 l0 hl0_mem)
    · rw [callsTo_pair_ne c l0.cb false [] hct]
      have hcl : c ∉ s.locks.map (fun l => l.cb) := by
        intro hmm
        exact hcnot (hmem_filter_cb c hmm (fun he => hct he.symm))
      simpa [callsTo] using h6 c hcmem hcl
  · intro c hcnot
    rw [hcalls, callsTo_append, h7 c hcnot,
      callsTo_pair_ne c l0.cb false [] (fun (he : l0.cb = c) => hcnot (he ▸ hl0_cb_used))]
    rfl
  · have hlast2 : (remove s uid).1.locks.getLast? = some t := by
      rw [hlocks2]
      exact hkeep.2
    rw [enabledCbs_eq _ (by rw [hlocks2]; exact hkeep.1 : InvL (remove s uid).1.locks),
      hlast2, hcalls, activeAfter_append, ← h8, hE]
    show ({t.cb} : Finset Nat) = ({t.cb} : Finset Nat).erase l0.cb
    rw [Finset.erase_eq_of_not_mem (by simpa using hl0_cb_ne_t)]
  · rw [hcalls, hE]
    refine ⟨?_, trivial⟩
    show (({t.cb} : Finset Nat).erase l0.cb).card ≤ 1
    calc (({t.cb} : Finset Nat).erase l0.cb).card
        ≤ ({t.cb} : Finset Nat).card := Finset.card_erase_le
      _ ≤ 1 := by simp

theorem minv_remove (s : LockStack) (used : List Nat) (tr : List (Nat × Bool))
    (uid : String) (hM : MInv s used tr) :
    MInv (remove s uid).1 used (tr ++ callsOf (remove s uid).2)
    ∧ safeFrom (enabledCbs s) (callsOf (remove s uid).2) := by
  by_cases hw : wasCur s uid = true
  · exact minv_remove_top s used tr uid hM hw
  · have hw2 : wasCur s uid = false := by simpa using hw
    cases hf : s.locks.find? (fun l => l.uid == uid) with
    | none => exact minv_remove_notfound s used tr uid hM hf
    | some l0 => exact minv_remove_nontop s used tr uid l0 hM hf hw2

theorem minv_init : MInv emptyStack [] [] := by
  refine ⟨trivial, by simp [emptyStack], by simp [emptyStack], ?_, ?_, ?_, ?_, rfl⟩
  · intro l hm; simp [emptyStack] at hm
  · intro l hm; simp [emptyStack] at hm
  · intro c hc; simp at hc
  · intro c _; rfl

theorem minv_run (ops : List Op) : ∀ (s : LockStack) (used : List Nat) (tr : List (Nat × Bool)),
    WFb s used ops = true → MInv s used tr →
    MInv (run s ops).1 (usedAfter used ops) (tr ++ callsOf (run s ops).2)
    ∧ safeFrom (activeAfter ∅ tr) (callsOf (run s ops).2) := by
  induction ops with
  | nil =>
    intro s used tr _ hM
    refine ⟨?_, trivial⟩
    show MInv (run s []).1 (usedAfter used []) (tr ++ callsOf [])
    have hnil : callsOf ([] : List Ev) = [] := rfl
    rw [hnil, List.append_nil]
    exact hM
  | cons op ops ih =>
    intro s used tr hwf hM
    have hactive : activeAfter ∅ tr = enabledCbs s := hM.2.2.2.2.2.2.2.symm
    cases op with
    | add uid cb =>
      have hwf2 : (decide (uid ∉ s.locks.map (fun l => l.uid)) && decide (cb ∉ used)
          && WFb (add s uid cb).1 (cb :: used) ops) = true := hwf
      simp only [Bool.and_eq_true, decide_eq_true_eq] at hwf2
      obtain ⟨⟨hu, hc⟩, hrest⟩ := hwf2
      obtain ⟨hstep, hsafe1⟩ := minv_add s used tr uid cb hM hu hc
      obtain ⟨hrec, hsafe2⟩ := ih (add s uid cb).1 (cb :: used)
        (tr ++ callsOf (add s uid cb).2) hrest hstep
      constructor
      · show MInv (run (add s uid cb).1 ops).1 (usedAfter (cb :: used) ops)
          (tr ++ callsOf ((add s uid cb).2 ++ (run (add s uid cb).1 ops).2))
        rw [callsOf_append, ← List.append_assoc]
        exact hrec
      · show safeFrom (activeAfter ∅ tr)
          (callsOf ((add s uid cb).2 ++ (run (add s uid cb).1 ops).2))
        rw [callsOf_append]
        refine safeFrom_append _ _ _ (by rw [hactive]; exact hsafe1) ?_
        rw [activeAfter_append] at hsafe2
        exact hsafe2
    | remove uid =>
      have hrest : WFb (remove s uid).1 used ops = true := hwf
      obtain ⟨hstep, hsafe1⟩ := minv_remove s used tr uid hM
      obtain ⟨hrec, hsafe2⟩ := ih (remove s uid).1 used
        (tr ++ callsOf (remove s uid).2) hrest hstep
      constructor
      · show MInv (run (remove s uid).1 ops).1 (usedAfter used ops)
          (tr ++ callsOf ((remove s uid).2 ++ (run (remove s uid).1 ops).2))
        rw [callsOf_append, ← List.append_assoc]
        exact hrec
      · show safeFrom (activeAfter ∅ tr)
          (callsOf ((remove s uid).2 ++ (run (remove s uid).1 ops).2))
        rw [callsOf_append]
        refine safeFrom_append _ _ _ (by rw [hactive]; exact hsafe1) ?_
        rw [activeAfter_append] at hsafe2
        exact hsafe2

/-- C2.  Disable-before-enable ordering of the `setEnabled` call trace:
for every well-formed sequence of `add`/`remove` operations (unique uids
among registered locks, one fresh callback per `add` — the caller
contract stated in `LockStack.tsx`), at no point of the emitted call
trace — even mid-operation, i.e. at every prefix — do two distinct
callbacks both have `true` as the last value passed to them.  Moreover
`add "a"`, `add "b"` produces exactly the calls
`cb_a(true), cb_a(false), cb_b(true)`, and then removing the top `"b"`
appends `cb_b(false), cb_a(true)`. -/
theorem c2_disable_before_enable (ops : List Op) (hwf : WFb emptyStack [] ops = true) :
    (∀ p q, callsOf (traceOf emptyStack ops) = p ++ q →
      ∀ c1 c2, lastVal c1 p = some true → lastVal c2 p = some true → c1 = c2)
    ∧ callsOf (traceOf emptyStack [Op.add "a" 0, Op.add "b" 1])
        = [(0, true), (0, false), (1, true)]
    ∧ callsOf (traceOf emptyStack [Op.add "a" 0, Op.add "b" 1, Op.remove "b"])
        = [(0, true), (0, false), (1, true), (1, false), (0, true)] := by
  refine ⟨?_, by decide, by decide⟩
  intro p q hpq c1 c2 hc1 hc2
  have hrun := minv_run ops emptyStack [] [] hwf minv_init
  have hsafe : safeFrom (activeAfter ∅ []) (callsOf (run emptyStack ops).2) := hrun.2
  have hsafe2 : safeFrom (∅ : Finset Nat) (p ++ q) := by
    rw [← hpq]
    exact hsafe
  have hcard : (activeAfter ∅ p).card ≤ 1 :=
    safeFrom_card p q ∅ (by simp) hsafe2
  have hm1 : c1 ∈ activeAfter ∅ p := (mem_activeAfter p c1 ∅).mpr (Or.inl hc1)
  have hm2 : c2 ∈ activeAfter ∅ p := (mem_activeAfter p c2 ∅).mpr (Or.inl hc2)
  exact Finset.card_le_one.mp hcard c1 hm1 c2 hm2

/-- Witness for C2 at the concrete operation sequence
`add "a"; add "b"; remove "b"`. -/
theorem c2_disable_before_enable_witness :
    (∀ p q, callsOf (traceOf emptyStack [Op.add "a" 0, Op.add "b" 1, Op.remove "b"]) = p ++ q →
      ∀ c1 c2, lastVal c1 p = some true → lastVal c2 p = some true → c1 = c2)
    ∧ callsOf (traceOf emptyStack [Op.add "a" 0, Op.add "b" 1])
        = [(0, true), (0, false), (1, true)]
    ∧ callsOf (traceOf emptyStack [Op.add "a" 0, Op.add "b" 1, Op.remove "b"])
        = [(0, true), (0, false), (1, true), (1, false), (0, true)] :=
  c2_disable_before_enable [Op.add "a" 0, Op.add "b" 1, Op.remove "b"] (by decide)

theorem alt_count (L : List Bool) (h : List.Chain' (fun a b => a ≠ b) L) :
    ∀ b, L.head? = some b →
      (L.getLast? = some b → L.count b = L.count (!b) + 1)
      ∧ (L.getLast? = some (!b) → L.count b = L.count (!b)) := by
  induction L with
  | nil => intro b hb; simp at hb
  | cons a l ih =>
    intro b hb
    simp only [List.head?_cons, Option.some.injEq] at hb
    subst hb
    cases l with
    | nil =>
      constructor
      · intro _
        simp [List.count_cons, List.count_nil]
      · intro hlast
        simp only [List.getLast?_singleton, Option.some.injEq] at hlast
        cases a <;> simp at hlast
    | cons c l2 =>
      rw [List.chain'_cons] at h
      have hca : c = !a := by
        have := h.1
        cases a <;> cases c <;> simp_all
      subst hca
      have hcount_a : ((a :: (!a) :: l2).count a) = (((!a) :: l2).count a) + 1 :=
        List.count_cons_self a ((!a) :: l2)
      have hcount_na : ((a :: (!a) :: l2).count (!a)) = (((!a) :: l2).count (!a)) := by
        rw [List.count_cons_of_ne (by cases a <;> simp)]
      have ihc := ih h.2 (!a) (by simp)
      rw [Bool.not_not] at ihc
      constructor
      · intro hlast
        rw [List.getLast?_cons_cons] at hlast
        have heq := ihc.2 hlast
        rw [hcount_a, hcount_na, heq]
      · intro hlast
        rw [List.getLast?_cons_cons] at hlast
        have heq := ihc.1 hlast
        rw [hcount_a, hcount_na, heq]

theorem mem_usedAfter (ops : List Op) :
    ∀ (used : List Nat) (c : Nat), c ∈ usedAfter used ops ↔ (c ∈ addCbs ops ∨ c ∈ used) := by
  induction ops with
  | nil => intro used c; simp [usedAfter, addCbs]
  | cons op ops ih =>
    intro used c
    cases op with
    | add uid cb =>
      rw [show usedAfter used (Op.add uid cb :: ops) = usedAfter (cb :: used) ops from rfl]
      rw [ih (cb :: used) c]
      simp [addCbs, List.mem_cons]
      tauto
    | remove uid =>
      rw [show usedAfter used (Op.remove uid :: ops) = usedAfter used ops from rfl]
      rw [ih used c]
      simp [addCbs]

/-- C5 counterexample: for the sequence `add "a"; add "b"; remove "a"`
(removing a record that is not the top), callback 0 of record `"a"`
receives the values `true, false, false` across its full add→remove
lifecycle: the counts of `true` and `false` differ and the sequence ends
with two consecutive identical calls, contradicting the claim. -/
theorem c5_counterexample :
    callsTo 0 (callsOf (traceOf emptyStack [Op.add "a" 0, Op.add "b" 1, Op.remove "a"]))
      = [true, false, false]
    ∧ ¬ (([true, false, false] : List Bool).count true
          = ([true, false, false] : List Bool).count false
        ∧ List.Chain' (fun a b => a ≠ b) [true, false, false]) := by
  exact ⟨by decide, by decide⟩

/-- C5 amended.  For a well-formed sequence of operations, the call list
of a callback registered by some `add` and no longer registered at the
end (a completed add→remove lifecycle) is a strictly alternating run
starting with `true` followed by the final `false` delivered by
`remove`.  Hence, when the record was removed while it was the top of
the stack (the alternating run ends in `true`), the callback received
equally many `true`s and `false`s in strictly alternating order; when it
was removed while not the top (the run already ended in `false`), the
final call duplicates the preceding `false` and `false` is delivered
exactly once more than `true`. -/
theorem c5_lifecycle_amended (ops : List Op) (hwf : WFb emptyStack [] ops = true)
    (c : Nat) (hc_used : c ∈ addCbs ops)
    (hc_gone : c ∉ (stateAfter emptyStack ops).locks.map (fun l => l.cb)) :
    ∃ A, callsTo c (callsOf (traceOf emptyStack ops)) = A ++ [false]
      ∧ List.Chain' (fun a b => a ≠ b) A
      ∧ A.head? = some true
      ∧ (A.getLast? = some true →
          (callsTo c (callsOf (traceOf emptyStack ops))).count true
            = (callsTo c (callsOf (traceOf emptyStack ops))).count false
          ∧ List.Chain' (fun a b => a ≠ b) (callsTo c (callsOf (traceOf emptyStack ops))))
      ∧ (A.getLast? = some false →
          (callsTo c (callsOf (traceOf emptyStack ops))).count false
            = (callsTo c (callsOf (traceOf emptyStack ops))).count true + 1) := by
  have hrun := (minv_run ops emptyStack [] [] hwf minv_init).1
  have h6 := hrun.2.2.2.2.2.1
  have hshape : RemovedShape (callsTo c ([] ++ callsOf (run emptyStack ops).2)) := by
    refine h6 c ?_ hc_gone
    exact (mem_usedAfter ops [] c).mpr (Or.inl hc_used)
  rw [List.nil_append] at hshape
  obtain ⟨A, hA, hch, hhead⟩ := hshape
  have hA2 : callsTo c (callsOf (traceOf emptyStack ops)) = A ++ [false] := hA
  refine ⟨A, hA2, hch, hhead, ?_, ?_⟩
  · intro hlastA
    have hreg : RegShape (A ++ [false]) false :=
      regShape_append A true false ⟨hch, hhead, hlastA⟩ (by simp)
    have hl3 : (A ++ [false]).getLast? = some (!true) := by
      simp only [Bool.not_true]
      exact hreg.2.2
    have hcounts := (alt_count (A ++ [false]) hreg.1 true hreg.2.1).2 hl3
    simp only [Bool.not_true] at hcounts
    constructor
    · rw [hA2]
      exact hcounts
    · rw [hA2]
      exact hreg.1
  · intro hlastA
    have hl3 : A.getLast? = some (!true) := by simpa using hlastA
    have hcounts := (alt_count A hch true hhead).2 hl3
    simp only [Bool.not_true] at hcounts
    rw [hA2, List.count_append, List.count_append]
    have h1 : (([false] : List Bool).count true) = 0 := by decide
    have h2 : (([false] : List Bool).count false) = 1 := by decide
    rw [h1, h2]
    omega

/-- Witness for the amended C5 at `add "a"; add "b"; remove "a"` with
callback 0. -/
theorem c5_lifecycle_amended_witness :
    ∃ A, callsTo 0 (callsOf (traceOf emptyStack [Op.add "a" 0, Op.add "b" 1, Op.remove "a"]))
        = A ++ [false]
      ∧ List.Chain' (fun a b => a ≠ b) A
      ∧ A.head? = some true
      ∧ (A.getLast? = some true →
          (callsTo 0 (callsOf (traceOf emptyStack [Op.add "a" 0, Op.add "b" 1, Op.remove "a"]))).count true
            = (callsTo 0 (callsOf (traceOf emptyStack [Op.add "a" 0, Op.add "b" 1, Op.remove "a"]))).count false
          ∧ List.Chain' (fun a b => a ≠ b)
              (callsTo 0 (callsOf (traceOf emptyStack [Op.add "a" 0, Op.add "b" 1, Op.remove "a"]))))
      ∧ (A.getLast? = some false →
          (callsTo 0 (callsOf (traceOf emptyStack [Op.add "a" 0, Op.add "b" 1, Op.remove "a"]))).count false
            = (callsTo 0 (callsOf (traceOf emptyStack [Op.add "a" 0, Op.add "b" 1, Op.remove "a"]))).count true + 1) :=
  c5_lifecycle_amended [Op.add "a" 0, Op.add "b" 1, Op.remove "a"] (by decide) 0
    (by decide) (by decide)

theorem getLast?_filter_keep (p : Lock → Bool) (ls : List Lock) (t : Lock)
    (hl : ls.getLast? = some t) (hp : p t = true) :
    (ls.filter p).getLast? = some t := by
  have hd := eq_dropLast_append ls t hl
  rw [hd, List.filter_append]
  have hone : List.filter p [t] = [t] := by simp [List.filter_cons, hp]
  rw [hone, List.getLast?_concat]

/-- C6.  Removing a record that is not the top of the stack: the
resulting lock array is exactly the original one with the entries of the
removed uid filtered out (every surviving record is untouched, so no
other record's `enabled` field changes), `current()` still returns the
same top record, and the only `setEnabled` invocation of the whole call
is the `false` delivered to the first record with the removed uid (no
other record's callback fires). -/
theorem c6_nontop_remove_preserves_others (s : LockStack) (uid : String) (t : Lock)
    (hlast : s.locks.getLast? = some t) (hne : t.uid ≠ uid) :
    (remove s uid).1.locks = s.locks.filter (fun l => l.uid != uid)
    ∧ (remove s uid).1.locks.getLast? = some t
    ∧ callsOf (remove s uid).2
        = (match s.locks.find? (fun l => l.uid == uid) with
           | some l => [(l.cb, false)]
           | none => []) := by
  have hw : wasCur s uid = false := by
    rw [wasCur_of_getLast s uid t hlast]
    simp [hne]
  refine ⟨?_, ?_, ?_⟩
  · rw [remove_locks, hw]
    simp
  · rw [remove_locks, hw]
    simp only [Bool.false_eq_true, if_false]
    exact getLast?_filter_keep _ s.locks t hlast (by simp [bne, hne])
  · rw [callsOf_remove, hw]
    simp

/-- Witness for C6 on the stack `[a (bottom, disabled), b (top, enabled)]`,
removing the non-top `"a"`. -/
theorem c6_nontop_remove_preserves_others_witness :
    (remove { locks := [{ uid := "a", cb := 0, enabled := false },
                        { uid := "b", cb := 1, enabled := true }], listeners := [] } "a").1.locks
        = ({ locks := [{ uid := "a", cb := 0, enabled := false },
                       { uid := "b", cb := 1, enabled := true }],
             listeners := [] } : LockStack).locks.filter (fun l => l.uid != "a")
    ∧ (remove { locks := [{ uid := "a", cb := 0, enabled := false },
                          { uid := "b", cb := 1, enabled := true }], listeners := [] } "a").1.locks.getLast?
        = some { uid := "b", cb := 1, enabled := true }
    ∧ callsOf (remove { locks := [{ uid := "a", cb := 0, enabled := false },
                                  { uid := "b", cb := 1, enabled := true }],
                        listeners := [] } "a").2
        = (match ({ locks := [{ uid := "a", cb := 0, enabled := false },
                              { uid := "b", cb := 1, enabled := true }],
                    listeners := [] } : LockStack).locks.find? (fun l => l.uid == "a") with
           | some l => [(l.cb, false)]
           | none => []) :=
  c6_nontop_remove_preserves_others
    { locks := [{ uid := "a", cb := 0, enabled := false },
                { uid := "b", cb := 1, enabled := true }], listeners := [] }
    "a" { uid := "b", cb := 1, enabled := true } (by decide) (by decide)

/-- C10.  When the stack contains two or more records with the same uid,
one `remove(uid)` call deletes every record with that uid (the uid
sequence of the surviving array is the original one with all occurrences
of that uid filtered out), while the only `setEnabled(false)` invocation
of the call goes to the first matching record in insertion order. -/
theorem c10_duplicate_uid_remove (s : LockStack) (uid : String)
    (hdup : 2 ≤ (s.locks.filter (fun l => l.uid == uid)).length) :
    ((remove s uid).1.locks.map (fun l => l.uid))
      = ((s.locks.filter (fun l => l.uid != uid)).map (fun l => l.uid))
    ∧ ∃ l0, s.locks.find? (fun l => l.uid == uid) = some l0
        ∧ (callsOf (remove s uid).2).filter (fun x => !x.2) = [(l0.cb, false)] := by
  obtain ⟨l0, hfind⟩ : ∃ l0, s.locks.find? (fun l => l.uid == uid) = some l0 := by
    have hne : s.locks.filter (fun l => l.uid == uid) ≠ [] := by
      intro he
      rw [he] at hdup
      simp at hdup
    obtain ⟨x, hx⟩ := List.exists_mem_of_ne_nil _ hne
    have hxm := List.mem_of_mem_filter hx
    have hxp := List.of_mem_filter hx
    have hsome : (s.locks.find? (fun l => l.uid == uid)).isSome :=
      List.find?_isSome.mpr ⟨x, hxm, hxp⟩
    exact Option.isSome_iff_exists.mp hsome
  refine ⟨?_, l0, hfind, ?_⟩
  · rw [remove_locks]
    by_cases hw : wasCur s uid
    · rw [if_pos hw, map_uid_setEnabledLast]
    · rw [if_neg hw]
  · rw [callsOf_remove, hfind]
    by_cases hw : wasCur s uid
    · rw [if_pos hw]
      cases hgl : (s.locks.filter (fun l => l.uid != uid)).getLast? with
      | none => simp
      | some t2 => simp
    · rw [if_neg hw]
      simp

/-- Witness for C10 on a stack holding two records with uid `"a"`. -/
theorem c10_duplicate_uid_remove_witness :
    ((remove { locks := [{ uid := "a", cb := 0, enabled := false },
                         { uid := "b", cb := 1, enabled := false },
                         { uid := "a", cb := 2, enabled := true }],
               listeners := [] } "a").1.locks.map (fun l => l.uid))
      = ((({ locks := [{ uid := "a", cb := 0, enabled := false },
                       { uid := "b", cb := 1, enabled := false },
                       { uid := "a", cb := 2, enabled := true }],
             listeners := [] } : LockStack).locks.filter
            (fun l => l.uid != "a")).map (fun l => l.uid))
    ∧ ∃ l0, ({ locks := [{ uid := "a", cb := 0, enabled := false },
                         { uid := "b", cb := 1, enabled := false },
                         { uid := "a", cb := 2, enabled := true }],
               listeners := [] } : LockStack).locks.find? (fun l => l.uid == "a") = some l0
        ∧ (callsOf (remove { locks := [{ uid := "a", cb := 0, enabled := false },
                                       { uid := "b", cb := 1, enabled := false },
                                       { uid := "a", cb := 2, enabled := true }],
                             listeners := [] } "a").2).filter (fun x => !x.2)
            = [(l0.cb, false)] :=
  c10_duplicate_uid_remove
    { locks := [{ uid := "a", cb := 0, enabled := false },
                { uid := "b", cb := 1, enabled := false },
                { uid := "a", cb := 2, enabled := true }], listeners := [] }
    "a" (by decide)

theorem notifiesOf_applyOp (s : LockStack) (op : Op) :
    notifiesOf (applyOp s op).2
      = (applyOp s op).1.listeners.map (fun l => (l, isActive (applyOp s op).1)) := by
  cases op with
  | add uid cb =>
    rw [show applyOp s (Op.add uid cb) = add s uid cb from rfl, notifiesOf_add, add_listeners]
  | remove uid =>
    rw [show applyOp s (Op.remove uid) = remove s uid from rfl, notifiesOf_remove,
      remove_listeners]

/-- C4 counterexample: with one subscribed listener, `add "a"` then
`add "b"` notifies the listener twice — the second `add` leaves
`isActive()` at `true` (no transition of the aggregate boolean), yet the
listener is invoked again. -/
theorem c4_counterexample :
    notifiesOf (traceOf { locks := [], listeners := [7] } [Op.add "a" 0, Op.add "b" 1])
      = [(7, true), (7, true)]
    ∧ isActive (stateAfter { locks := [], listeners := [7] } [Op.add "a" 0]) = true
    ∧ isActive (stateAfter { locks := [], listeners := [7] } [Op.add "a" 0, Op.add "b" 1])
        = true := by
  exact ⟨by decide, by decide, by decide⟩

/-- C4 amended.  `emit()` runs unconditionally at the end of every `add`
and every `remove`: each subscribed listener is invoked exactly once per
operation — including operations that do not change the aggregate
`isActive()` boolean, such as pushing a second layer, removing a non-top
layer, or removing an absent uid — and each invocation carries the
`isActive()` value of the post-operation state. -/
theorem c4_notify_every_operation (L : List Nat) (ops : List Op) :
    notifiesOf (traceOf { locks := [], listeners := L } ops)
      = (postStates { locks := [], listeners := L } ops).flatMap
          (fun s2 => s2.listeners.map (fun l => (l, isActive s2))) := by
  suffices h : ∀ s : LockStack, notifiesOf (traceOf s ops)
      = (postStates s ops).flatMap
          (fun s2 => s2.listeners.map (fun l => (l, isActive s2))) from h _
  induction ops with
  | nil => intro s; rfl
  | cons op ops ih =>
    intro s
    show notifiesOf ((applyOp s op).2 ++ (run (applyOp s op).1 ops).2) = _
    rw [notifiesOf_append, notifiesOf_applyOp]
    show _ = ((applyOp s op).1 :: postStates (applyOp s op).1 ops).flatMap _
    rw [List.flatMap_cons]
    exact congrArg _ (ih (applyOp s op).1)

/-- C9: the unsubscribe closure returned by `subscribe` is a no-op on
the stack.  After `subscribe(7)` and invoking the returned closure, the
listener array still contains 7 (the closure computed the correctly
filtered copy `[]` but discarded it), and a subsequent `add` still
notifies listener 7 — the code contradicts `subscribe`'s own
documentation that the returned function unsubscribes the listener. -/
theorem c9_unsubscribe_does_not_remove :
    (unsubscribe (subscribe emptyStack 7) 7).1.listeners = [7]
    ∧ (unsubscribe (subscribe emptyStack 7) 7).2 = []
    ∧ notifiesOf (traceOf (unsubscribe (subscribe emptyStack 7) 7).1 [Op.add "a" 0])
        = [(7, true)] := by
  exact ⟨rfl, by decide, by decide⟩

/-! ### The wrap algorithm -/

theorem cdp_of_follows (node other : Element) (hn : node.lo ≤ node.hi)
    (ho : other.lo ≤ other.hi) (h : followsDoc node other = true) :
    compareDocumentPosition node other = DOCUMENT_POSITION_PRECEDING := by
  unfold followsDoc at h
  rw [decide_eq_true_eq] at h
  have h1 : node ≠ other := by
    intro he
    rw [he] at h
    omega
  have h2 : contains other node = false := by
    rw [Bool.eq_false_iff]
    intro hcon
    unfold contains at hcon
    rw [Bool.and_eq_true, decide_eq_true_eq, decide_eq_true_eq] at hcon
    omega
  have h3 : contains node other = false := by
    rw [Bool.eq_false_iff]
    intro hcon
    unfold contains at hcon
    rw [Bool.and_eq_true, decide_eq_true_eq, decide_eq_true_eq] at hcon
    omega
  have h4 : other.lo < node.lo := by omega
  simp [compareDocumentPosition, h1, h2, h3, h4]

theorem cdp_of_precedes (node other : Element) (hn : node.lo ≤ node.hi)
    (ho : other.lo ≤ other.hi) (h : precedesDoc node other = true) :
    compareDocumentPosition node other = DOCUMENT_POSITION_FOLLOWING := by
  unfold precedesDoc at h
  rw [decide_eq_true_eq] at h
  have h1 : node ≠ other := by
    intro he
    rw [he] at h
    omega
  have h2 : contains other node = false := by
    rw [Bool.eq_false_iff]
    intro hcon
    unfold contains at hcon
    rw [Bool.and_eq_true, decide_eq_true_eq, decide_eq_true_eq] at hcon
    omega
  have h3 : contains node other = false := by
    rw [Bool.eq_false_iff]
    intro hcon
    unfold contains at hcon
    rw [Bool.and_eq_true, decide_eq_true_eq, decide_eq_true_eq] at hcon
    omega
  have h4 : ¬ (other.lo < node.lo) := by omega
  simp [compareDocumentPosition, h1, h2, h3, h4]

theorem wrapFocus_eq (T : Subtree) (target : Element) (forceFirst : Bool) :
    wrapFocus T target forceFirst
      = (if ((compareDocumentPosition target T.root &&& DOCUMENT_POSITION_PRECEDING != 0)
            || forceFirst) then walkerFirstChild T
         else if (compareDocumentPosition target T.root &&& DOCUMENT_POSITION_FOLLOWING != 0)
         then walkerLastChild T
         else none).getD T.root := by
  unfold wrapFocus
  show (match (if ((compareDocumentPosition target T.root &&& DOCUMENT_POSITION_PRECEDING != 0)
        || forceFirst) then walkerFirstChild T
      else if (compareDocumentPosition target T.root &&& DOCUMENT_POSITION_FOLLOWING != 0)
      then walkerLastChild T
      else none) with
    | some w => w
    | none => T.root) = _
  cases hx : (if ((compareDocumentPosition target T.root &&& DOCUMENT_POSITION_PRECEDING != 0)
      || forceFirst) then walkerFirstChild T
    else if (compareDocumentPosition target T.root &&& DOCUMENT_POSITION_FOLLOWING != 0)
    then walkerLastChild T
    else none) with
  | none => simp
  | some w => simp

/-- C3 counterexample: a boundary with focusable descendants `x, y, z`
and a violating target that precedes the boundary in document order,
with `forceFirst = false`.  The claim says focus lands on the first
focusable descendant `x`; `wrapFocus` focuses the last one, `z`
(`target.compareDocumentPosition(root)`'s PRECEDING bit means the root
precedes the target, so the first-descendant branch runs for targets
that follow the boundary, not targets that precede it). -/
theorem c3_counterexample :
    precedesDoc { lo := 1, hi := 1, tabIndex := 0, disabled := false }
        ({ lo := 2, hi := 6, tabIndex := -1, disabled := false } : Element) = true
    ∧ walkerFirstChild
        { root := { lo := 2, hi := 6, tabIndex := -1, disabled := false },
          descendants := [{ lo := 3, hi := 3, tabIndex := 0, disabled := false },
                          { lo := 4, hi := 4, tabIndex := 0, disabled := false },
                          { lo := 5, hi := 5, tabIndex := 0, disabled := false }] }
        = some { lo := 3, hi := 3, tabIndex := 0, disabled := false }
    ∧ wrapFocus
        { root := { lo := 2, hi := 6, tabIndex := -1, disabled := false },
          descendants := [{ lo := 3, hi := 3, tabIndex := 0, disabled := false },
                          { lo := 4, hi := 4, tabIndex := 0, disabled := false },
                          { lo := 5, hi := 5, tabIndex := 0, disabled := false }] }
        { lo := 1, hi := 1, tabIndex := 0, disabled := false } false
        = { lo := 5, hi := 5, tabIndex := 0, disabled := false }
    ∧ ({ lo := 5, hi := 5, tabIndex := 0, disabled := false } : Element)
        ≠ { lo := 3, hi := 3, tabIndex := 0, disabled := false } := by
  exact ⟨by decide, by decide, by decide, by decide⟩

/-- C3 amended.  `wrapFocus(root, target, forceFirst)` focuses the
*first* focusable descendant when the violating target *follows* the
boundary in document order or `forceFirst` is set, and the *last*
focusable descendant when the target *precedes* the boundary (the
directions are the reverse of the claim); in either case, when no
focusable descendant exists, the boundary element itself is focused
(the `getD` fallback). -/
theorem c3_wrap_direction_amended (T : Subtree) (target : Element) (forceFirst : Bool)
    (hroot : T.root.lo ≤ T.root.hi) (htgt : target.lo ≤ target.hi) :
    (followsDoc target T.root = true ∨ forceFirst = true →
      wrapFocus T target forceFirst = (walkerFirstChild T).getD T.root)
    ∧ (precedesDoc target T.root = true → forceFirst = false →
      wrapFocus T target forceFirst = (walkerLastChild T).getD T.root) := by
  constructor
  · intro hcase
    rcases hcase with hfollow | hforce
    · have hpos := cdp_of_follows target T.root htgt hroot hfollow
      have hbit : (DOCUMENT_POSITION_PRECEDING &&& DOCUMENT_POSITION_PRECEDING != 0) = true := by
        decide
      rw [wrapFocus_eq, hpos, hbit, Bool.true_or, if_pos rfl]
    · subst hforce
      rw [wrapFocus_eq, Bool.or_true, if_pos rfl]
  · intro hprec hforce
    subst hforce
    have hpos := cdp_of_precedes target T.root htgt hroot hprec
    have hbit1 : (DOCUMENT_POSITION_FOLLOWING &&& DOCUMENT_POSITION_PRECEDING != 0) = false := by
      decide
    have hbit2 : (DOCUMENT_POSITION_FOLLOWING &&& DOCUMENT_POSITION_FOLLOWING != 0) = true := by
      decide
    rw [wrapFocus_eq, hpos, hbit1, hbit2, Bool.false_or]
    rw [if_neg (by simp), if_pos rfl]

/-- Witness for the amended C3: target following the boundary wraps to
the first focusable descendant, target preceding wraps to the last. -/
theorem c3_wrap_direction_amended_witness :
    (followsDoc { lo := 7, hi := 7, tabIndex := 0, disabled := false }
        ({ lo := 2, hi := 6, tabIndex := -1, disabled := false } : Element) = true
      ∨ false = true →
      wrapFocus
        { root := { lo := 2, hi := 6, tabIndex := -1, disabled := false },
          descendants := [{ lo := 3, hi := 3, tabIndex := 0, disabled := false },
                          { lo := 4, hi := 4, tabIndex := 0, disabled := false },
                          { lo := 5, hi := 5, tabIndex := 0, disabled := false }] }
        { lo := 7, hi := 7, tabIndex := 0, disabled := false } false
        = (walkerFirstChild
            { root := { lo := 2, hi := 6, tabIndex := -1, disabled := false },
              descendants := [{ lo := 3, hi := 3, tabIndex := 0, disabled := false },
                              { lo := 4, hi := 4, tabIndex := 0, disabled := false },
                              { lo := 5, hi := 5, tabIndex := 0, disabled := false }] }).getD
            { lo := 2, hi := 6, tabIndex := -1, disabled := false })
    ∧ (precedesDoc { lo := 7, hi := 7, tabIndex := 0, disabled := false }
        ({ lo := 2, hi := 6, tabIndex := -1, disabled := false } : Element) = true →
      false = false →
      wrapFocus
        { root := { lo := 2, hi := 6, tabIndex := -1, disabled := false },
          descendants := [{ lo := 3, hi := 3, tabIndex := 0, disabled := false },
                          { lo := 4, hi := 4, tabIndex := 0, disabled := false },
                          { lo := 5, hi := 5, tabIndex := 0, disabled := false }] }
        { lo := 7, hi := 7, tabIndex := 0, disabled := false } false
        = (walkerLastChild
            { root := { lo := 2, hi := 6, tabIndex := -1, disabled := false },
              descendants := [{ lo := 3, hi := 3, tabIndex := 0, disabled := false },
                              { lo := 4, hi := 4, tabIndex := 0, disabled := false },
                              { lo := 5, hi := 5, tabIndex := 0, disabled := false }] }).getD
            { lo := 2, hi := 6, tabIndex := -1, disabled := false }) :=
  c3_wrap_direction_amended
    { root := { lo := 2, hi := 6, tabIndex := -1, disabled := false },
      descendants := [{ lo := 3, hi := 3, tabIndex := 0, disabled := false },
                      { lo := 4, hi := 4, tabIndex := 0, disabled := false },
                      { lo := 5, hi := 5, tabIndex := 0, disabled := false }] }
    { lo := 7, hi := 7, tabIndex := 0, disabled := false } false
    (by decide) (by decide)

/-! ### Focus return and focusout handling -/

/-- C7: behaviour of the `useFocusReturn` cleanup at teardown with the
disabled-return flag unset and a valid explicit override target.  The
override is preferred over the captured target, but the `.focus()` call
is performed synchronously inside the effect cleanup — no action is
deferred — contradicting the claim (and the function's own comment
"Happens on next tick") that the focus-return assignment is deferred by
one tick and never synchronous. -/
theorem c7_focus_return_is_synchronous :
    useFocusReturnCleanup none
        (some (some { lo := 8, hi := 8, tabIndex := 0, disabled := false }))
        (some { lo := 9, hi := 9, tabIndex := 0, disabled := false })
      = [(Timing.sync, { lo := 8, hi := 8, tabIndex := 0, disabled := false })]
    ∧ useFocusReturnCleanup none (some none)
        (some { lo := 9, hi := 9, tabIndex := 0, disabled := false })
      = [(Timing.sync, { lo := 9, hi := 9, tabIndex := 0, disabled := false })]
    ∧ (∀ a ∈ useFocusReturnCleanup none
        (some (some { lo := 8, hi := 8, tabIndex := 0, disabled := false }))
        (some { lo := 9, hi := 9, tabIndex := 0, disabled := false }),
        a.1 ≠ Timing.deferred)
    ∧ useFocusReturnCleanup (some true)
        (some (some { lo := 8, hi := 8, tabIndex := 0, disabled := false }))
        (some { lo := 9, hi := 9, tabIndex := 0, disabled := false })
      = [] := by
  exact ⟨by decide, by decide, by decide, by decide⟩

/-- C8 counterexample: while the layer is armed, a focus-exited event
whose destination is genuinely external to the document (a null
`relatedTarget`, focus leaving for host-application chrome) while the
document's `activeElement` is still inside the boundary performs no
action at all: the `event.relatedTarget === document.body` test does not
match `null`, and the `activeElement` fallback is contained in the
boundary, so the handler neither suppresses default handling nor focuses
the boundary. -/
theorem c8_counterexample :
    handleFocusOut true
        (some { root := { lo := 2, hi := 6, tabIndex := -1, disabled := false },
                descendants := [{ lo := 3, hi := 3, tabIndex := 0, disabled := false },
                                { lo := 4, hi := 4, tabIndex := 0, disabled := false },
                                { lo := 5, hi := 5, tabIndex := 0, disabled := false }] })
        { body := { lo := 0, hi := 10, tabIndex := -1, disabled := false },
          activeElement := some { lo := 3, hi := 3, tabIndex := 0, disabled := false } }
        none
      = []
    ∧ FAction.preventDefault ∉ handleFocusOut true
        (some { root := { lo := 2, hi := 6, tabIndex := -1, disabled := false },
                descendants := [{ lo := 3, hi := 3, tabIndex := 0, disabled := false },
                                { lo := 4, hi := 4, tabIndex := 0, disabled := false },
                                { lo := 5, hi := 5, tabIndex := 0, disabled := false }] })
        { body := { lo := 0, hi := 10, tabIndex := -1, disabled := false },
          activeElement := some { lo := 3, hi := 3, tabIndex := 0, disabled := false } }
        none := by
  exact ⟨by decide, by decide⟩

/-- C8 amended.  The destination the armed layer suppresses is
`document.body` (the code's placeholder), not a null destination: on a
focus-exited event with `relatedTarget === document.body` (the body
strictly containing the boundary), the handler calls `preventDefault`
and focuses the boundary, and then — because `body` is not contained in
the boundary — additionally invokes the wrap algorithm, so focus finally
lands on the boundary's last focusable descendant, or on the boundary
itself when none exists.  A null destination is not suppressed. -/
theorem c8_body_destination_amended (T : Subtree) (doc : DocModel)
    (hcontain : contains doc.body T.root = true)
    (hstrict : contains T.root doc.body = false)
    (hneq : doc.body ≠ T.root) :
    handleFocusOut true (some T) doc (some doc.body)
      = [FAction.preventDefault, FAction.focus T.root,
         FAction.focus ((walkerLastChild T).getD T.root)] := by
  have hcdp : compareDocumentPosition doc.body T.root
      = DOCUMENT_POSITION_CONTAINED_BY ||| DOCUMENT_POSITION_FOLLOWING := by
    unfold compareDocumentPosition
    rw [if_neg hneq, if_neg (by rw [hstrict]; simp), if_pos hcontain]
  have hwrap : wrapFocus T doc.body false = (walkerLastChild T).getD T.root := by
    have hbit1 : ((DOCUMENT_POSITION_CONTAINED_BY ||| DOCUMENT_POSITION_FOLLOWING)
        &&& DOCUMENT_POSITION_PRECEDING != 0) = false := by decide
    have hbit2 : ((DOCUMENT_POSITION_CONTAINED_BY ||| DOCUMENT_POSITION_FOLLOWING)
        &&& DOCUMENT_POSITION_FOLLOWING != 0) = true := by decide
    rw [wrapFocus_eq, hcdp, hbit1, hbit2, Bool.false_or]
    rw [if_neg (by simp), if_pos rfl]
  unfold handleFocusOut
  simp [hstrict, hwrap]

/-- Witness for the amended C8 on a concrete document. -/
theorem c8_body_destination_amended_witness :
    handleFocusOut true
        (some { root := { lo := 2, hi := 6, tabIndex := -1, disabled := false },
                descendants := [{ lo := 3, hi := 3, tabIndex := 0, disabled := false },
                                { lo := 4, hi := 4, tabIndex := 0, disabled := false },
                                { lo := 5, hi := 5, tabIndex := 0, disabled := false }] })
        { body := { lo := 0, hi := 10, tabIndex := -1, disabled := false },
          activeElement := some { lo := 3, hi := 3, tabIndex := 0, disabled := false } }
        (some { lo := 0, hi := 10, tabIndex := -1, disabled := false })
      = [FAction.preventDefault,
         FAction.focus { lo := 2, hi := 6, tabIndex := -1, disabled := false },
         FAction.focus ((walkerLastChild
            { root := { lo := 2, hi := 6, tabIndex := -1, disabled := false },
              descendants := [{ lo := 3, hi := 3, tabIndex := 0, disabled := false },
                              { lo := 4, hi := 4, tabIndex := 0, disabled := false },
                              { lo := 5, hi := 5, tabIndex := 0, disabled := false }] }).getD
            { lo := 2, hi := 6, tabIndex := -1, disabled := false })] :=
  c8_body_destination_amended
    { root := { lo := 2, hi := 6, tabIndex := -1, disabled := false },
      descendants := [{ lo := 3, hi := 3, tabIndex := 0, disabled := false },
                      { lo := 4, hi := 4, tabIndex := 0, disabled := false },
                      { lo := 5, hi := 5, tabIndex := 0, disabled := false }] }
    { body := { lo := 0, hi := 10, tabIndex := -1, disabled := false },
      activeElement := some { lo := 3, hi := 3, tabIndex := 0, disabled := false } }
    (by decide) (by decide) (by decide)

end FocusLayers
